import Mathlib

/-!
# Transport security state: preload and dynamic policy lookups

A shallow embedding of `net/base/transport_security_state.cc` and of the
digest type of `net/base/hash_value.h`.

* `std::string` is a `List Char`; reading `s[i]` at or past the end gives
  the terminator `NUL`.
* `base::Time` is an integer; `base::Time::Now()` is an argument `now`.
* `dynamic_entries_` (a `std::map`) is the list of its nodes, looked up by key.
* `kPreloadedSTS` (generated header, not part of the sources) is an argument.
* the constructor of `DomainNameIterator` and the two header methods store
  the host under `TransportSecurityState::CanonicalizeHostname(host)`. The
  lookups and the methods built on them take that function as the argument
  `canon`; the code is their instance at `CanonicalizeHostname`, which returns
  a string of size 0. General facts are stated for every `canon`; what a call
  of the code returns is stated at `CanonicalizeHostname`.
* `lowercase`, `suffixesReference` and `GetPreloadEntryReference` follow the words of
  the specification (canonical hostname, suffix sequence, preload lookup) and
  stand on the side of what is expected, never inside a method of the code.
* the mutators work on `TransportSecurityState`: the dynamic table and the
  delegate, of which the number of `StateIsDirty` calls is kept. The outcome
  of the header parsers is an argument.
* `DeleteSince` gives `none` where the run of the code is undefined (a read
  through a reference to an erased node, an iterator moved past `end()`).
-/

namespace net

/-! ## Strings and time -/

/-- A `std::string`. -/
abbrev Str := List Char

/-- A `base::Time`. -/
abbrev Time := Int

/-- The string terminator `'\0'`. -/
def NUL : Char := Char.ofNat 0

/-- The read `s[i]`: the character at `i`, the terminator from the end on. -/
def charAt (s : Str) (i : Nat) : Char := s.getD i NUL

/-! ## hash_value.h -/

/-- The enum `HashValueTag` (without its count `HASH_VALUE_TAGS_COUNT`). -/
inductive HashValueTag where
  | HASH_VALUE_SHA1
  | HASH_VALUE_SHA256
deriving DecidableEq, Repr

/-- The class `HashValue`: a tag and the bytes of the fingerprint. -/
structure HashValue where
  tag : HashValueTag
  data : List Nat
deriving DecidableEq, Repr

/-- A `HashValueVector`. -/
abbrev HashValueVector := List HashValue

/-- Modelled from the spec: `HashValue::Equals` is declared in hash_value.h but
its body is not among the sources; the spec has equality as exact byte
comparison scoped to matching algorithm. -/
def HashValue.Equals (a b : HashValue) : Bool :=
  decide (a.tag = b.tag) && decide (a.data = b.data)

/-- Modelled from the spec: `HashesIntersect` is called by `CheckSpki`, and the
sources do not hold its body; the spec has it as: at least one presented digest
equals (same algorithm tag and bytes) at least one digest in the target set. -/
def HashesIntersect (a b : HashValueVector) : Bool :=
  a.any (fun x => b.any (fun y => x.Equals y))

/-! ## Data model of transport_security_state -/

/-- The enum `TagIndex` (without its count `TOTAL_TAGS`), declared in
transport_security_state.h: the tags the code names, `UPGRADE_TAG` first. -/
inductive TagIndex where
  | UPGRADE_TAG
  | SPKI_TAG
  | TACK_0_TAG
  | TACK_1_TAG
deriving DecidableEq, Repr

/-- One slot of a preload digest list (a `const char* const*` array): a pointer
to a SHA-1 digest. `digest` is the 20 bytes the pointer points to; `slot_bytes`
is the 20 bytes that lie in memory from the slot itself on (the pointer and
what follows it in the array). The layout of memory is not modelled: both are
data of the table. -/
structure HashSlot where
  digest : List Nat
  slot_bytes : List Nat
deriving DecidableEq, Repr

/-- One record of `kPreloadedSTS`, with the fields that `GetPreloadEntry`,
`GetPreloadSpki` and `GetPreloadTack` read. `name_length` is the length of
`name`; `hashes` and `bad_hashes` are nullable pointers to null-terminated
arrays of slots (`none` is the null pointer); `tack_key` is a C string. -/
structure PreloadEntry where
  name : Str
  include_subdomains : Bool
  upgrade : Bool
  hashes : Option (List HashSlot)
  bad_hashes : Option (List HashSlot)
  tack_key : Str
deriving DecidableEq, Repr

/-- The struct `DynamicTag`, with the fields that `Merge`, `DeleteSince` and
`GetDynamicEntry` use. -/
structure DynamicTag where
  present_ : Bool
  include_subdomains_ : Bool
  created_ : Time
  expiry_ : Time
deriving DecidableEq, Repr

/-- The struct `DynamicEntry`: the four slots of `tags_`, `hashes_`, and the
two slots of `tack_keys_`. -/
structure DynamicEntry where
  tag_upgrade : DynamicTag
  tag_spki : DynamicTag
  tag_tack_0 : DynamicTag
  tag_tack_1 : DynamicTag
  hashes_ : HashValueVector
  tack_keys_ : Str × Str
deriving DecidableEq, Repr

/-- The read `entry.tags_[tag_index]`. -/
def DynamicEntry.tags_ (entry : DynamicEntry) : TagIndex → DynamicTag
  | .UPGRADE_TAG => entry.tag_upgrade
  | .SPKI_TAG => entry.tag_spki
  | .TACK_0_TAG => entry.tag_tack_0
  | .TACK_1_TAG => entry.tag_tack_1

/-- The map `dynamic_entries_`, as the list of its nodes. -/
abbrev DynamicEntryMap := List (Str × DynamicEntry)

/-- The call `dynamic_entries_.find(key)`; `none` is `end()`. -/
def DynamicEntryMap.find (m : DynamicEntryMap) (key : Str) : Option DynamicEntry :=
  match m with
  | [] => none
  | (k, entry) :: rest => if k = key then some entry else DynamicEntryMap.find rest key

/-- Modelled from the spec: the default value of the `exact_match` parameters
is declared in transport_security_state.h, which is not among the sources; the
spec has the lookups made without that argument as non-exact. -/
def kExactMatchDefault : Bool := false

/-! ## DomainNameIterator -/

/-- The struct `DomainNameIterator`. -/
structure DomainNameIterator where
  name_ : Str
  index_ : Nat
  exact_match_ : Bool
deriving DecidableEq, Repr

namespace DomainNameIterator

/-- The constructor: `name_` is the canonicalised host, `index_` is 0. -/
def init (canon : Str → Str) (host : Str) (exact_match : Bool) : DomainNameIterator :=
  { name_ := canon host, index_ := 0, exact_match_ := exact_match }

/-- The method `HasNext`. -/
def HasNext (it : DomainNameIterator) : Bool :=
  if it.exact_match_ then it.index_ == 0 else charAt it.name_ it.index_ != NUL

/-- The loop `for (...; name_[index_] != '.' && name_[index_] != 0; index_++);`
started at index `i`: the first index from `i` on that holds a dot or the
terminator. At most `fuel` steps are taken. -/
def skipLabel (name : Str) : Nat → Nat → Nat
  | 0, i => i
  | fuel + 1, i =>
    if charAt name i != '.' && charAt name i != NUL then skipLabel name fuel (i + 1) else i

/-- The method `Advance`. -/
def Advance (it : DomainNameIterator) : DomainNameIterator :=
  let i := skipLabel it.name_ it.name_.length (it.index_ + 1)
  { it with index_ := if charAt it.name_ i == '.' then i + 1 else i }

/-- The method `GetName`: `name_.substr(index_, name_.size() - index_)`. -/
def GetName (it : DomainNameIterator) : Str := it.name_.drop it.index_

/-- The method `IsFullHostname`. -/
def IsFullHostname (it : DomainNameIterator) : Bool := it.index_ == 0

/-- The loop `for (iter; iter.HasNext(); iter.Advance()) body`, where `body`
gives `some r` when it returns `r` from the enclosing function and `none` when
it falls through to the next round. `none` is also the result when the loop
ends. At most `fuel` rounds are run. -/
def forLoop {β : Type} (body : DomainNameIterator → Option β) :
    Nat → DomainNameIterator → Option β
  | 0, _ => none
  | fuel + 1, it =>
    if it.HasNext then
      match body it with
      | some r => some r
      | none => forLoop body fuel it.Advance
    else none

/-- The number of rounds given to `forLoop`: one more than the length of the
name, which the loop never uses up (`forLoop_fuel`). -/
def rounds (it : DomainNameIterator) : Nat := it.name_.length + 1

end DomainNameIterator

/-! ## Lookups -/

/-- The `switch (tag_index)` of `GetPreloadEntry` at a record in scope:
`some (some entry)` is `return entry`, `some none` is `return NULL`, `none` is
`break` (the scan goes on). -/
def preloadSwitch (tag_index : TagIndex) (entry : PreloadEntry) :
    Option (Option PreloadEntry) :=
  match tag_index with
  | .UPGRADE_TAG => if entry.upgrade then some (some entry) else none
  | .SPKI_TAG =>
    if entry.hashes.isSome || entry.bad_hashes.isSome then some (some entry) else none
  | .TACK_0_TAG => if charAt entry.tack_key 0 != NUL then some (some entry) else none
  | .TACK_1_TAG => some none

/-- The inner loop of `GetPreloadEntry` over the records of the table, for the
candidate `name` of one round of the iterator. -/
def preloadScan (tag_index : TagIndex) (name : Str) (isFull : Bool) :
    List PreloadEntry → Option (Option PreloadEntry)
  | [] => none
  | entry :: rest =>
    if entry.name = name ∧ (isFull = true ∨ entry.include_subdomains = true) then
      match preloadSwitch tag_index entry with
      | some r => some r
      | none => preloadScan tag_index name isFull rest
    else preloadScan tag_index name isFull rest

/-- The method `GetPreloadEntry`; `none` is `NULL`. -/
def GetPreloadEntry (canon : Str → Str) (kPreloadedSTS : List PreloadEntry)
    (tag_index : TagIndex) (host : Str) (exact_match : Bool) : Option PreloadEntry :=
  let iter := DomainNameIterator.init canon host exact_match
  (DomainNameIterator.forLoop
    (fun it => preloadScan tag_index it.GetName it.IsFullHostname kPreloadedSTS)
    iter.rounds iter).join

/-- The body of the loop of `GetDynamicEntry` for one round of the iterator. -/
def dynamicBody (dynamic_entries_ : DynamicEntryMap) (now : Time) (tag_index : TagIndex)
    (it : DomainNameIterator) : Option DynamicEntry :=
  match dynamic_entries_.find it.GetName with
  | some entry =>
    let tag := entry.tags_ tag_index
    if tag.present_ && decide (now > tag.expiry_) &&
        (it.IsFullHostname || tag.include_subdomains_) then some entry
    else none
  | none => none

/-- The method `GetDynamicEntry`; `some entry` is `true` with `*result = entry`,
`none` is `false`. -/
def GetDynamicEntry (canon : Str → Str) (dynamic_entries_ : DynamicEntryMap) (now : Time)
    (tag_index : TagIndex) (host : Str) (exact_match : Bool) : Option DynamicEntry :=
  let iter := DomainNameIterator.init canon host exact_match
  DomainNameIterator.forLoop (dynamicBody dynamic_entries_ now tag_index) iter.rounds iter

/-- A `HashValue(HASH_VALUE_SHA1)` that holds the given bytes. -/
def sha1HashValue (bytes : List Nat) : HashValue :=
  { tag := .HASH_VALUE_SHA1, data := bytes }

/-- The method `GetPreloadUpgrade`. -/
def GetPreloadUpgrade (canon : Str → Str) (kPreloadedSTS : List PreloadEntry)
    (host : Str) (exact_match : Bool) : Bool :=
  (GetPreloadEntry canon kPreloadedSTS .UPGRADE_TAG host exact_match).isSome

/-- The method `GetPreloadSpki`. The arguments `hashes` and `bad_hashes` are the
vectors behind the two pointers on entry; the result is the returned flag and
the two vectors on exit. In both loops `memcpy(.., hash, 20)` copies from the
address of the slot (`hash`, not `*hash`): the value pushed holds the bytes of
the slot, not those of the digest it points to. -/
def GetPreloadSpki (canon : Str → Str) (kPreloadedSTS : List PreloadEntry)
    (host : Str) (hashes bad_hashes : HashValueVector) (exact_match : Bool) :
    Bool × HashValueVector × HashValueVector :=
  match GetPreloadEntry canon kPreloadedSTS .SPKI_TAG host exact_match with
  | none => (false, hashes, bad_hashes)
  | some entry =>
    let hashes :=
      match entry.hashes with
      | some l => hashes ++ l.map (fun slot => sha1HashValue slot.slot_bytes)
      | none => hashes
    let bad_hashes :=
      match entry.bad_hashes with
      | some l => bad_hashes ++ l.map (fun slot => sha1HashValue slot.slot_bytes)
      | none => bad_hashes
    (true, hashes, bad_hashes)

/-- The method `GetPreloadTack`, with `tack_key` the string behind the pointer
on entry; the result is the returned flag and that string on exit. -/
def GetPreloadTack (canon : Str → Str) (kPreloadedSTS : List PreloadEntry)
    (host : Str) (tack_key : Str) (exact_match : Bool) : Bool × Str :=
  match GetPreloadEntry canon kPreloadedSTS .TACK_0_TAG host exact_match with
  | none => (false, tack_key)
  | some entry => (true, entry.tack_key)

/-- The method `GetDynamicUpgrade`. -/
def GetDynamicUpgrade (canon : Str → Str) (dynamic_entries_ : DynamicEntryMap) (now : Time)
    (host : Str) (exact_match : Bool) : Bool :=
  match GetDynamicEntry canon dynamic_entries_ now .UPGRADE_TAG host exact_match with
  | none => false
  | some _ => true

/-- The method `GetDynamicSpki`, with `hashes` the vector behind the pointer on
entry; the result is the returned flag and that vector on exit. -/
def GetDynamicSpki (canon : Str → Str) (dynamic_entries_ : DynamicEntryMap) (now : Time)
    (host : Str) (hashes : HashValueVector) : Bool × HashValueVector :=
  match GetDynamicEntry canon dynamic_entries_ now .SPKI_TAG host kExactMatchDefault with
  | none => (false, hashes)
  | some entry => (true, entry.hashes_)

/-- The method `GetDynamicTacks`, with `tack_keys` the two strings of the array
on entry; the result is the returned flag and the array on exit. -/
def GetDynamicTacks (canon : Str → Str) (dynamic_entries_ : DynamicEntryMap) (now : Time)
    (host : Str) (tack_keys : Str × Str) : Bool × (Str × Str) :=
  match GetDynamicEntry canon dynamic_entries_ now .TACK_0_TAG host kExactMatchDefault with
  | none => (false, tack_keys)
  | some entry =>
    match GetDynamicEntry canon dynamic_entries_ now .TACK_1_TAG host kExactMatchDefault with
    | some entry1 => (true, (entry.tack_keys_.1, entry1.tack_keys_.2))
    | none => (true, (entry.tack_keys_.1, tack_keys.2))

/-! ## Queries of the engine -/

/-- The method `ShouldUpgrade`. -/
def ShouldUpgrade (canon : Str → Str) (kPreloadedSTS : List PreloadEntry)
    (dynamic_entries_ : DynamicEntryMap) (now : Time) (host : Str) : Bool :=
  GetPreloadUpgrade canon kPreloadedSTS host kExactMatchDefault ||
    GetDynamicUpgrade canon dynamic_entries_ now host kExactMatchDefault

/-- The method `IsStrictOnErrors`. The vector `hashes` is shared by the two
SPKI lookups and `tack_keys[0]` by the two trust-agility lookups, as in the
source; only the flags enter the result. -/
def IsStrictOnErrors (canon : Str → Str) (kPreloadedSTS : List PreloadEntry)
    (dynamic_entries_ : DynamicEntryMap) (now : Time) (host : Str) : Bool :=
  GetPreloadUpgrade canon kPreloadedSTS host kExactMatchDefault ||
    (GetDynamicUpgrade canon dynamic_entries_ now host kExactMatchDefault ||
      (let pre := GetPreloadSpki canon kPreloadedSTS host [] [] kExactMatchDefault
       pre.1 ||
        ((GetDynamicSpki canon dynamic_entries_ now host pre.2.1).1 ||
          (let tack := GetPreloadTack canon kPreloadedSTS host [] kExactMatchDefault
           tack.1 || (GetDynamicTacks canon dynamic_entries_ now host (tack.2, [])).1))))

/-- The method `CheckSpki`. In `!GetPreloadSpki(..) && !GetDynamicSpki(..)` the
right operand is evaluated only when the left one is true, that is when the
preload lookup failed; otherwise `dynamic_hashes` stays empty. -/
def CheckSpki (canon : Str → Str) (kPreloadedSTS : List PreloadEntry)
    (dynamic_entries_ : DynamicEntryMap) (now : Time) (host : Str)
    (hashes : HashValueVector) : Bool :=
  let pre := GetPreloadSpki canon kPreloadedSTS host [] [] kExactMatchDefault
  let preload_hashes := pre.2.1
  let preload_bad_hashes := pre.2.2
  let dyn := if pre.1 then (false, []) else GetDynamicSpki canon dynamic_entries_ now host []
  let dynamic_hashes := dyn.2
  if !pre.1 && !dyn.1 then true
  else if hashes.isEmpty then false
  else if HashesIntersect preload_bad_hashes hashes then false
  else if preload_hashes.isEmpty && dynamic_hashes.isEmpty then true
  else if HashesIntersect dynamic_hashes hashes || HashesIntersect preload_hashes hashes then true
  else false

/-! ## The engine state and its mutators -/

/-- The method `DynamicTag::Merge`: the returned flag and the tag afterwards. -/
def DynamicTag.Merge (tag : DynamicTag) (present include_subdomains : Bool)
    (now expiry : Time) : Bool × DynamicTag :=
  let changed := false
  let (tag, changed) :=
    if tag.present_ != present then ({ tag with present_ := present }, true)
    else (tag, changed)
  let (tag, changed) :=
    if tag.include_subdomains_ != include_subdomains then
      ({ tag with include_subdomains_ := include_subdomains }, true)
    else (tag, changed)
  let (tag, changed) :=
    if tag.expiry_ != expiry then ({ tag with expiry_ := expiry }, true)
    else (tag, changed)
  if changed then (true, { tag with created_ := now }) else (false, tag)

/-- The write `entry.tags_[tag_index] = tag`. -/
def DynamicEntry.setTag (entry : DynamicEntry) (tag_index : TagIndex) (tag : DynamicTag) :
    DynamicEntry :=
  match tag_index with
  | .UPGRADE_TAG => { entry with tag_upgrade := tag }
  | .SPKI_TAG => { entry with tag_spki := tag }
  | .TACK_0_TAG => { entry with tag_tack_0 := tag }
  | .TACK_1_TAG => { entry with tag_tack_1 := tag }

/-- Modelled from the spec: the constructors of `DynamicTag` and of the members
of `DynamicEntry` are declared in transport_security_state.h, which is not among
the sources; the spec has the four tags as slots that are individually toggled
via `present`, so a new entry has none toggled on, no digests and no keys. -/
def DynamicEntry.fresh : DynamicEntry :=
  { tag_upgrade := { present_ := false, include_subdomains_ := false, created_ := 0,
                     expiry_ := 0 },
    tag_spki := { present_ := false, include_subdomains_ := false, created_ := 0,
                  expiry_ := 0 },
    tag_tack_0 := { present_ := false, include_subdomains_ := false, created_ := 0,
                    expiry_ := 0 },
    tag_tack_1 := { present_ := false, include_subdomains_ := false, created_ := 0,
                    expiry_ := 0 },
    hashes_ := [], tack_keys_ := ([], []) }

/-- An entry none of whose four tags is present. -/
def DynamicEntry.noTagPresent (entry : DynamicEntry) : Bool :=
  !entry.tag_upgrade.present_ && !entry.tag_spki.present_ && !entry.tag_tack_0.present_ &&
    !entry.tag_tack_1.present_

/-- The entry that `dynamic_entries_[key]` refers to: the one stored under
`key`, or the new one that `operator[]` inserts. -/
def DynamicEntryMap.subscript (m : DynamicEntryMap) (key : Str) : DynamicEntry :=
  (m.find key).getD DynamicEntry.fresh

/-- The map after `dynamic_entries_[key]` has been made to hold `entry`: the
node stored under `key` is overwritten, or a node is inserted at the place of
`key` in the order of the keys. -/
def DynamicEntryMap.put (m : DynamicEntryMap) (key : Str) (entry : DynamicEntry) :
    DynamicEntryMap :=
  match m with
  | [] => [(key, entry)]
  | (k, e) :: rest =>
    if k = key then (key, entry) :: rest
    else if key < k then (key, entry) :: (k, e) :: rest
    else (k, e) :: DynamicEntryMap.put rest key entry

/-- The members of `TransportSecurityState`: the dynamic table, and the pointer
`delegate_`, which is `NULL` (`none`) or points to a delegate, of which only
the number of `StateIsDirty` calls it has received is kept. -/
structure TransportSecurityState where
  dynamic_entries_ : DynamicEntryMap
  delegate_ : Option Nat
deriving DecidableEq, Repr

/-- The method `DirtyNotify`. -/
def DirtyNotify (s : TransportSecurityState) : TransportSecurityState :=
  match s.delegate_ with
  | some calls => { s with delegate_ := some (calls + 1) }
  | none => s

/-- The method `Clear`. -/
def Clear (s : TransportSecurityState) : TransportSecurityState :=
  DirtyNotify { s with dynamic_entries_ := [] }

/-- The method `AddHSTSHeader`. `parsed` is the outcome of
`ParseHSTSHeader(now, value, ..)`: `none` when it fails, else
`(present, expiry, include_subdomains)`. The result is the returned flag and
the state afterwards. -/
def AddHSTSHeader (canon : Str → Str) (s : TransportSecurityState) (now : Time) (host : Str)
    (parsed : Option (Bool × Time × Bool)) : Bool × TransportSecurityState :=
  match parsed with
  | none => (false, s)
  | some (present, expiry, include_subdomains) =>
    let key := canon host
    let entry := s.dynamic_entries_.subscript key
    let merged := (entry.tags_ .UPGRADE_TAG).Merge present include_subdomains now expiry
    let entry := entry.setTag .UPGRADE_TAG merged.2
    let s := { s with dynamic_entries_ := s.dynamic_entries_.put key entry }
    if merged.1 then (true, DirtyNotify s) else (true, s)

/-- The method `AddHPKPHeader`. `parsed` is the outcome of
`ParseHPKPHeader(now, value, ssl_info, ..)`: `none` when it fails, else
`(hashes, present, expiry)`. The result is the returned flag and the state
afterwards. -/
def AddHPKPHeader (canon : Str → Str) (s : TransportSecurityState) (now : Time) (host : Str)
    (parsed : Option (HashValueVector × Bool × Time)) : Bool × TransportSecurityState :=
  match parsed with
  | none => (false, s)
  | some (hashes, present, expiry) =>
    let key := canon host
    let entry := s.dynamic_entries_.subscript key
    let merged := (entry.tags_ .SPKI_TAG).Merge present false now expiry
    let entry := entry.setTag .SPKI_TAG merged.2
    if merged.1 then
      (true, DirtyNotify
        { s with dynamic_entries_ := s.dynamic_entries_.put key { entry with hashes_ := hashes } })
    else (true, { s with dynamic_entries_ := s.dynamic_entries_.put key entry })

/-! ## DeleteSince -/

/-- The state inside one round of the `while` loop of `DeleteSince`. `entry` is
the object behind the reference `DynamicEntry& entry` and `key` the key of its
node; `entry_erased` tells that this node has been erased, after which the
reference dangles; `at_entry` tells that `iter` still points at this node.
`passed` holds the nodes behind it that `iter` has passed and left in the map,
`rest` the nodes from `iter` to `end()` once `iter` has left the node of
`entry`. -/
structure DeleteSinceRound where
  key : Str
  entry : DynamicEntry
  entry_erased : Bool
  at_entry : Bool
  passed : DynamicEntryMap
  rest : DynamicEntryMap
  empty_entry : Bool
  dirtied : Bool
deriving DecidableEq, Repr

/-- The first statement of the body of the `for` loop over the tags in
`DeleteSince`: a present tag created at or after `time` is marked as not
present and sets `dirtied`; a present tag created before clears `empty_entry`. -/
def DeleteSinceMark (time : Time) (tag_index : TagIndex) (st : DeleteSinceRound) :
    DeleteSinceRound :=
  if (st.entry.tags_ tag_index).present_ then
    if (st.entry.tags_ tag_index).created_ ≥ time then
      { st with
        entry := st.entry.setTag tag_index { st.entry.tags_ tag_index with present_ := false },
        dirtied := true }
    else { st with empty_entry := false }
  else st

/-- The second statement of the body of that `for` loop:
`if (empty_entry) { dynamic_entries_.erase(iter++); dirtied = true; } else iter++;`.
`none` is undefined behaviour: `iter == end()`. -/
def DeleteSinceAdvance (st : DeleteSinceRound) : Option DeleteSinceRound :=
  if st.at_entry then
    if st.empty_entry then
      some { st with entry_erased := true, at_entry := false, dirtied := true }
    else some { st with at_entry := false }
  else
    match st.rest with
    | [] => none
    | node :: rest =>
      if st.empty_entry then some { st with rest := rest, dirtied := true }
      else some { st with passed := st.passed ++ [node], rest := rest }

/-- One pass through the body of the `for` loop over the tags in `DeleteSince`.
`none` is undefined behaviour: a read through `entry` after its node was
erased, or `iter == end()` when `iter` is to move on. -/
def DeleteSinceTag (time : Time) (tag_index : TagIndex) (st : DeleteSinceRound) :
    Option DeleteSinceRound :=
  if st.entry_erased then none else DeleteSinceAdvance (DeleteSinceMark time tag_index st)

/-- One round of the `while` loop of `DeleteSince`, entered with `iter` at the
node `(key, entry)` followed by the nodes `rest`: the `for` loop over the four
tags. -/
def DeleteSinceFor (time : Time) (key : Str) (entry : DynamicEntry) (rest : DynamicEntryMap)
    (dirtied : Bool) : Option DeleteSinceRound :=
  (((DeleteSinceTag time .UPGRADE_TAG
      { key := key, entry := entry, entry_erased := false, at_entry := true, passed := [],
        rest := rest, empty_entry := true, dirtied := dirtied }).bind
    (DeleteSinceTag time .SPKI_TAG)).bind
    (DeleteSinceTag time .TACK_0_TAG)).bind
    (DeleteSinceTag time .TACK_1_TAG)

/-- The `while (iter != dynamic_entries_.end())` loop of `DeleteSince`, with
`before` the nodes in front of `iter` and the second list the nodes from `iter`
on. The result is the map and the flag `dirtied` at the end of the loop, `none`
when a round is undefined. At most `fuel` rounds are run; every round moves
`iter` forward, so the number of nodes from `iter` on is enough
(`DeleteSinceWhile_fuel`). -/
def DeleteSinceWhile (time : Time) :
    Nat → DynamicEntryMap → DynamicEntryMap → Bool → Option (DynamicEntryMap × Bool)
  | _, before, [], dirtied => some (before, dirtied)
  | 0, _, _ :: _, _ => none
  | fuel + 1, before, (key, entry) :: rest, dirtied =>
    match DeleteSinceFor time key entry rest dirtied with
    | none => none
    | some st =>
      DeleteSinceWhile time fuel
        (before ++ (if st.entry_erased then [] else [(st.key, st.entry)]) ++ st.passed)
        st.rest st.dirtied

/-- The method `DeleteSince`; `none` when its run is undefined. -/
def DeleteSince (s : TransportSecurityState) (time : Time) : Option TransportSecurityState :=
  match DeleteSinceWhile time s.dynamic_entries_.length [] s.dynamic_entries_ false with
  | none => none
  | some (m, dirtied) =>
    let s := { s with dynamic_entries_ := m }
    some (if dirtied then DirtyNotify s else s)

/-- The tag after the prune that the spec describes for one tag: `present` is
cleared when the tag was present and created at or after the threshold. -/
def prunedTag (time : Time) (tag : DynamicTag) : DynamicTag :=
  if tag.present_ && decide (tag.created_ ≥ time) then { tag with present_ := false } else tag

/-- The entry after the prune that the spec describes: each of its four tags
pruned. -/
def prunedEntry (time : Time) (entry : DynamicEntry) : DynamicEntry :=
  { entry with tag_upgrade := prunedTag time entry.tag_upgrade,
               tag_spki := prunedTag time entry.tag_spki,
               tag_tack_0 := prunedTag time entry.tag_tack_0,
               tag_tack_1 := prunedTag time entry.tag_tack_1 }

/-- The table that the spec describes for `delete_since`: every entry pruned,
and the entries left with no tag present removed. -/
def DeleteSinceReference (m : DynamicEntryMap) (time : Time) : DynamicEntryMap :=
  (m.map (fun node => (node.1, prunedEntry time node.2))).filter
    (fun node => !node.2.noTagPresent)

/-! ## CheckTack and CanonicalizeHostname -/

/-- The loop of `CheckTack` over `hashes`: `keyHash`, the bytes of the first
element tagged `HASH_VALUE_SHA256`, or `none` for `NULL`. -/
def firstSha256 : HashValueVector → Option (List Nat)
  | [] => none
  | hashValue :: rest =>
    if hashValue.tag = .HASH_VALUE_SHA256 then some hashValue.data else firstSha256 rest

/-- The method `CheckTack`. `wellFormed tackExt keyHash now` stands for
`tackProcessWellFormed(&ctx, tackExt, tackExtLen, keyHash, currentTime,
tackChromium) == TACK_OK`, a function outside the sources, with `currentTime`
computed from `now`. As in `CheckSpki`, the dynamic lookup runs only when the
preload lookup failed. -/
def CheckTack (canon : Str → Str) (kPreloadedSTS : List PreloadEntry)
    (dynamic_entries_ : DynamicEntryMap) (now : Time)
    (wellFormed : List Nat → List Nat → Time → Bool) (host : Str) (hashes : HashValueVector)
    (tackExt : List Nat) : Bool :=
  let pre := GetPreloadTack canon kPreloadedSTS host [] kExactMatchDefault
  let dyn :=
    if pre.1 then (false, ([], []))
    else GetDynamicTacks canon dynamic_entries_ now host ([], [])
  if !pre.1 && !dyn.1 then true
  else
    match firstSha256 hashes with
    | none => false
    | some keyHash => if !wellFormed tackExt keyHash now then false else true

/-- The method `CanonicalizeHostname`. `name` is default-constructed, so its
size is 0; `std::transform` writes the `tolower` of the characters of `host`
through `name.begin()` and leaves the size of `name` as it is (for a non-empty
`host` these writes land outside the string); the string returned has size 0. -/
def CanonicalizeHostname (_host : Str) : Str := []

/-! ## Domain names -/

/-- One label of a domain name: not empty, without a dot or a terminator. -/
def isLabel (l : Str) : Prop := l ≠ [] ∧ ∀ c ∈ l, c ≠ '.' ∧ c ≠ NUL

/-- The name made of `labels`, each followed by a dot, in front of `base`:
`subdomainOf ["a", "b"] "example.com"` is `a.b.example.com`. -/
def subdomainOf (labels : List Str) (base : Str) : Str :=
  labels.foldr (fun l acc => l ++ '.' :: acc) base

/-! ## The states of the walk, and the lookups as searches over them -/

/-- The states of the iterator on which the body of the loop
`for (iter; iter.HasNext(); iter.Advance())` runs, in order, when no round
returns: `iter`, `iter.Advance()`, and so on while `HasNext` holds. At most
`fuel` of them are listed. -/
def DomainNameIterator.yielded : Nat → DomainNameIterator → List DomainNameIterator
  | 0, _ => []
  | fuel + 1, it => if it.HasNext then it :: DomainNameIterator.yielded fuel it.Advance else []

/-- The suffix sequence that the spec describes for the name made of `labels`
and `last`: the whole name, then the name with its leftmost label and the dot
behind it stripped, down to the bare last label. -/
def suffixesOf (labels : List Str) (last : Str) : List Str :=
  match labels with
  | [] => [last]
  | l :: ls => subdomainOf (l :: ls) last :: suffixesOf ls last

/-- Data relevant to a tag kind, as the spec lists it: the upgrade flag set for
Upgrade, an allowed or a blocked digest list present for Spki, a non-empty key
(a C string that does not start with the terminator) for TrustAgility slot 0.
A preload record has no key for slot 1. -/
def relevantData (tag_index : TagIndex) (entry : PreloadEntry) : Bool :=
  match tag_index with
  | .UPGRADE_TAG => entry.upgrade
  | .SPKI_TAG => entry.hashes.isSome || entry.bad_hashes.isSome
  | .TACK_0_TAG => charAt entry.tack_key 0 != NUL
  | .TACK_1_TAG => false

/-- The search that `GetPreloadEntry` amounts to, over the states that its own
iterator yields for the name it stores: the first record, in table order, whose
name is the name of the state, that is in scope and carries relevant data. -/
def GetPreloadEntryOverWalk (canon : Str → Str) (kPreloadedSTS : List PreloadEntry)
    (tag_index : TagIndex) (host : Str) (exact_match : Bool) : Option PreloadEntry :=
  let iter := DomainNameIterator.init canon host exact_match
  (iter.yielded iter.rounds).findSome? (fun candidate =>
    kPreloadedSTS.find? (fun entry =>
      decide (entry.name = candidate.GetName) &&
        (candidate.IsFullHostname || entry.include_subdomains) &&
        relevantData tag_index entry))

/-! ## The suffix sequence and the preload lookup of the specification -/

/-- The function `tolower` of the C library on one character. -/
def tolower (c : Char) : Char :=
  if 'A'.toNat ≤ c.toNat ∧ c.toNat ≤ 'Z'.toNat then Char.ofNat (c.toNat + 32) else c

/-- The canonical hostname of the specification (4.1: canonicalizes `host` to
lowercase, an ASCII case-fold), which is also what the comment on
`DomainNameIterator::name_` states: the full hostname, canonicalized to
lowercase. -/
def lowercase (host : Str) : Str := host.map tolower

/-- The names left when leftmost labels are stripped from `name` one after the
other, each with the dot behind it, down to the final label: the parts of
`name` behind each of its dots, in order. -/
def strippedSuffixes : Str → List Str
  | [] => []
  | c :: cs => if c = '.' then cs :: strippedSuffixes cs else strippedSuffixes cs

/-- The contract `suffixes(host, exact_match)` of the specification (4.1): the
host is canonicalized to lowercase; with `exact_match` the sequence is the full
canonical hostname alone; otherwise it is the full hostname, then the hostname
with its leftmost label stripped, repeated until only the final label has been
yielded. -/
def suffixesReference (host : Str) (exact_match : Bool) : List Str :=
  if exact_match then [lowercase host] else lowercase host :: strippedSuffixes (lowercase host)

/-- The contract `find_preload(tag_kind, host, exact_match)` of the
specification (4.2): over the candidates of the suffix sequence, from the most
specific to the least specific, the first record, in table order, whose label
equals the candidate, that is in scope (the candidate is the full hostname or
the record has `include_subdomains`), and that carries data relevant to the tag
kind; nothing when no candidate has such a record. -/
def GetPreloadEntryReference (kPreloadedSTS : List PreloadEntry)
    (tag_index : TagIndex) (host : Str) (exact_match : Bool) : Option PreloadEntry :=
  (suffixesReference host exact_match).findSome? (fun candidate =>
    kPreloadedSTS.find? (fun entry =>
      decide (entry.name = candidate) &&
        (decide (candidate = lowercase host) || entry.include_subdomains) &&
        relevantData tag_index entry))

/-! ## Sample data -/

/-- The host name `example.com`. -/
def exampleCom : Str := "example.com".toList

/-- A dynamic tag that is not present. -/
def absentTag : DynamicTag :=
  { present_ := false, include_subdomains_ := false, created_ := 0, expiry_ := 0 }

/-- A present dynamic tag created at time 0 whose `expiry_` is 5. -/
def tagExpiringAt5 : DynamicTag :=
  { present_ := true, include_subdomains_ := false, created_ := 0, expiry_ := 5 }

/-- A preload record for `example.com` that pins the single digest `[1]`; the
pointer to it lies in a slot whose bytes are `[201]`. -/
def pinnedRecord : PreloadEntry :=
  { name := exampleCom, include_subdomains := false, upgrade := false,
    hashes := some [{ digest := [1], slot_bytes := [201] }], bad_hashes := none,
    tack_key := [] }

/-- A preload record for `example.com` that allows the digest `[1]` and blocks
the digest `[9]`. -/
def blockingRecord : PreloadEntry :=
  { name := exampleCom, include_subdomains := false, upgrade := false,
    hashes := some [{ digest := [1], slot_bytes := [201] }],
    bad_hashes := some [{ digest := [9], slot_bytes := [209] }], tack_key := [] }

/-- A dynamic entry whose only present tag is the SPKI tag, pinning the
digest `[2]`. -/
def spkiEntry : DynamicEntry :=
  { tag_upgrade := absentTag, tag_spki := tagExpiringAt5, tag_tack_0 := absentTag,
    tag_tack_1 := absentTag, hashes_ := [sha1HashValue [2]], tack_keys_ := ([], []) }

/-- A dynamic entry whose only present tag is the upgrade tag. -/
def upgradeEntry : DynamicEntry :=
  { tag_upgrade := tagExpiringAt5, tag_spki := absentTag, tag_tack_0 := absentTag,
    tag_tack_1 := absentTag, hashes_ := [], tack_keys_ := ([], []) }

/-- A preload record for `example.com` with `include_subdomains` and the
upgrade flag. -/
def inheritRecord : PreloadEntry :=
  { name := exampleCom, include_subdomains := true, upgrade := true,
    hashes := none, bad_hashes := none, tack_key := [] }

/-- The preload record of the scenario: `pinned.example`, with
`include_subdomains`, allowing the single digest `[1]`, blocking none. -/
def pinnedExample : PreloadEntry :=
  { name := "pinned.example".toList, include_subdomains := true, upgrade := false,
    hashes := some [{ digest := [1], slot_bytes := [201] }], bad_hashes := none,
    tack_key := [] }

/-- A present dynamic tag created at time 10 whose `expiry_` is 20. -/
def tagCreatedAt10 : DynamicTag :=
  { present_ := true, include_subdomains_ := false, created_ := 10, expiry_ := 20 }

/-- A dynamic entry whose only present tag is an upgrade tag created at time 10. -/
def recentEntry : DynamicEntry :=
  { tag_upgrade := tagCreatedAt10, tag_spki := absentTag, tag_tack_0 := absentTag,
    tag_tack_1 := absentTag, hashes_ := [], tack_keys_ := ([], []) }

/-- A dynamic table of four hosts: `a.example` has an upgrade tag created at
time 0, the other three have an upgrade tag created at time 10. -/
def fourHosts : DynamicEntryMap :=
  [("a.example".toList, upgradeEntry), ("b.example".toList, recentEntry),
    ("c.example".toList, recentEntry), ("d.example".toList, recentEntry)]

/-- A preload record for `example.com` with the trust-agility key `k`. -/
def tackRecord : PreloadEntry :=
  { name := exampleCom, include_subdomains := false, upgrade := false,
    hashes := none, bad_hashes := none, tack_key := ['k'] }

/-- A verifier that accepts nothing. -/
def rejectingVerifier (_tackExt _keyHash : List Nat) (_now : Time) : Bool := false

/-- The engine that starts with an empty dynamic table and no delegate, after
`AddHSTSHeader` at time 0 for `example.com` with a header parsed as: present,
expiry 5, without `include_subdomains`. -/
def afterUpgradeHeader : TransportSecurityState :=
  (AddHSTSHeader CanonicalizeHostname { dynamic_entries_ := [], delegate_ := none } 0
    exampleCom (some (true, 5, false))).2

/-- The engine that starts with an empty dynamic table and no delegate, after
`AddHPKPHeader` at time 0 for `example.com` with a header parsed as: the
digest `[2]`, present, expiry 5. -/
def afterPinningHeader : TransportSecurityState :=
  (AddHPKPHeader CanonicalizeHostname { dynamic_entries_ := [], delegate_ := none } 0
    exampleCom (some ([sha1HashValue [2]], true, 5))).2

/-! ## The suffix walk -/

theorem charAt_of_length_le (s : Str) (i : Nat) (h : s.length ≤ i) : charAt s i = NUL := by
  simp [charAt, List.getElem?_eq_none h]

theorem charAt_append_right (p s : Str) (i : Nat) : charAt (p ++ s) (p.length + i) = charAt s i := by
  unfold charAt
  induction p with
  | nil => simp
  | cons c p ih =>
    have : (c :: p).length + i = (p.length + i) + 1 := by simp; omega
    rw [this]
    simpa using ih

theorem charAt_cons_zero (c : Char) (s : Str) : charAt (c :: s) 0 = c := by
  simp [charAt]

namespace DomainNameIterator

theorem skipLabel_ge (name : Str) (fuel i : Nat) : i ≤ skipLabel name fuel i := by
  induction fuel generalizing i with
  | zero => simp [skipLabel]
  | succ fuel ih =>
    unfold skipLabel
    split
    · exact Nat.le_of_succ_le (ih (i + 1))
    · exact Nat.le_refl i

/-- Where `skipLabel` stops there is a dot or the terminator, or the fuel is spent. -/
theorem skipLabel_stop (name : Str) (fuel i : Nat) :
    charAt name (skipLabel name fuel i) = '.' ∨ charAt name (skipLabel name fuel i) = NUL ∨
      skipLabel name fuel i = i + fuel := by
  induction fuel generalizing i with
  | zero => simp [skipLabel]
  | succ fuel ih =>
    unfold skipLabel
    split
    · rcases ih (i + 1) with h | h | h
      · exact Or.inl h
      · exact Or.inr (Or.inl h)
      · exact Or.inr (Or.inr (by omega))
    · rename_i hc
      simp only [Bool.and_eq_true, bne_iff_ne, ne_eq, not_and_or, not_not] at hc
      rcases hc with h | h
      · exact Or.inl h
      · exact Or.inr (Or.inl h)

/-- The bound on the scan inside `Advance` is never what ends it: where the scan
stops there is a dot or the terminator. -/
theorem skipLabel_fuel (name : Str) (i : Nat) :
    charAt name (skipLabel name name.length i) = '.' ∨
      charAt name (skipLabel name name.length i) = NUL := by
  rcases skipLabel_stop name name.length i with h | h | h
  · exact Or.inl h
  · exact Or.inr h
  · right
    rw [h]
    exact charAt_of_length_le _ _ (by omega)

@[simp] theorem Advance_name (it : DomainNameIterator) : it.Advance.name_ = it.name_ := rfl

@[simp] theorem Advance_exact (it : DomainNameIterator) :
    it.Advance.exact_match_ = it.exact_match_ := rfl

theorem Advance_index_gt (it : DomainNameIterator) : it.index_ < it.Advance.index_ := by
  have h := skipLabel_ge it.name_ it.name_.length (it.index_ + 1)
  simp only [Advance]
  split <;> omega

/-- After `Advance` the index is just behind a dot, or it rests on the terminator. -/
theorem Advance_index_cases (it : DomainNameIterator) :
    (0 < it.Advance.index_ ∧ charAt it.name_ (it.Advance.index_ - 1) = '.') ∨
      charAt it.name_ it.Advance.index_ = NUL := by
  simp only [Advance]
  split
  · rename_i h
    left
    simpa using h
  · rename_i h
    right
    rcases skipLabel_stop it.name_ it.name_.length (it.index_ + 1) with h1 | h1 | h1
    · simp [h1] at h
    · exact h1
    · rw [h1]
      exact charAt_of_length_le _ _ (by omega)

/-- The bound `rounds` is never what ends the loop: more fuel changes nothing. -/
theorem forLoop_succ {β : Type} (body : DomainNameIterator → Option β) (fuel : Nat)
    (it : DomainNameIterator) (h : it.name_.length + 1 ≤ fuel + it.index_) :
    forLoop body (fuel + 1) it = forLoop body fuel it := by
  induction fuel generalizing it with
  | zero =>
    have hn : it.HasNext = false := by
      unfold HasNext
      split
      · simp; omega
      · simp [charAt_of_length_le it.name_ it.index_ (by omega)]
    simp [forLoop, hn]
  | succ fuel ih =>
    rw [forLoop]
    conv_rhs => rw [forLoop]
    split
    · split
      · rfl
      · apply ih
        have := Advance_index_gt it
        simp only [Advance_name]
        omega
    · rfl

theorem forLoop_fuel {β : Type} (body : DomainNameIterator → Option β) (k : Nat)
    (it : DomainNameIterator) :
    forLoop body (it.rounds + k) it = forLoop body it.rounds it := by
  induction k with
  | zero => rfl
  | succ k ih =>
    rw [← ih, ← Nat.add_assoc]
    exact forLoop_succ body _ it (by unfold rounds; omega)

end DomainNameIterator

/-! ## CheckSpki -/

theorem HashesIntersect_of_mem (a b : HashValueVector) (d : HashValue) (ha : d ∈ a)
    (hb : d ∈ b) : HashesIntersect a b = true := by
  simp only [HashesIntersect, List.any_eq_true]
  exact ⟨d, ha, d, hb, by simp [HashValue.Equals]⟩

theorem HashesIntersect_iff (a b : HashValueVector) :
    HashesIntersect a b = true ↔ ∃ d, d ∈ a ∧ d ∈ b := by
  constructor
  · intro h
    simp only [HashesIntersect, List.any_eq_true] at h
    obtain ⟨x, hx, y, hy, hxy⟩ := h
    have : x = y := by
      cases x; cases y
      simp only [HashValue.Equals, Bool.and_eq_true, decide_eq_true_eq] at hxy
      simp [hxy.1, hxy.2]
    subst this
    exact ⟨x, hx, hy⟩
  · rintro ⟨d, ha, hb⟩
    exact HashesIntersect_of_mem a b d ha hb

@[simp] theorem HashesIntersect_nil_left (b : HashValueVector) : HashesIntersect [] b = false := rfl

theorem GetPreloadSpki_fail (canon : Str → Str) (kPreloadedSTS : List PreloadEntry)
    (host : Str) (hashes bad_hashes : HashValueVector) (exact_match : Bool)
    (h : (GetPreloadSpki canon kPreloadedSTS host hashes bad_hashes exact_match).1 = false) :
    GetPreloadSpki canon kPreloadedSTS host hashes bad_hashes exact_match =
      (false, hashes, bad_hashes) := by
  unfold GetPreloadSpki at h ⊢
  split at h
  · rfl
  · simp at h

/-- What `CheckSpki` computes, by the outcome of the two lookups. When the
preload lookup succeeds the dynamic table is not consulted. -/
theorem CheckSpki_eq (canon : Str → Str) (kPreloadedSTS : List PreloadEntry)
    (dynamic_entries_ : DynamicEntryMap) (now : Time) (host : Str) (hashes : HashValueVector) :
    CheckSpki canon kPreloadedSTS dynamic_entries_ now host hashes =
      match GetPreloadSpki canon kPreloadedSTS host [] [] kExactMatchDefault with
      | (true, A, B) =>
        !hashes.isEmpty && !HashesIntersect B hashes && (A.isEmpty || HashesIntersect A hashes)
      | (false, _, _) =>
        match GetDynamicSpki canon dynamic_entries_ now host [] with
        | (true, D) => !hashes.isEmpty && (D.isEmpty || HashesIntersect D hashes)
        | (false, _) => true := by
  unfold CheckSpki
  rcases hp : GetPreloadSpki canon kPreloadedSTS host [] [] kExactMatchDefault with ⟨ok, A, B⟩
  cases ok
  · have h0 := GetPreloadSpki_fail canon kPreloadedSTS host [] [] kExactMatchDefault
      (by rw [hp])
    rw [hp] at h0
    simp only [Prod.mk.injEq, true_and] at h0
    obtain ⟨hA, hB⟩ := h0
    subst hA hB
    rcases hd : GetDynamicSpki canon dynamic_entries_ now host [] with ⟨okd, D⟩
    generalize HashesIntersect D hashes = x
    cases okd <;> cases hashes <;> cases D <;> cases x <;> simp
  · generalize HashesIntersect B hashes = x
    generalize HashesIntersect A hashes = y
    cases hashes <;> cases A <;> cases x <;> cases y <;> simp

/-- C4: when neither the preload nor the dynamic SPKI lookup for the host
succeeds, every chain passes. -/
theorem CheckSpki_no_policy (canon : Str → Str) (kPreloadedSTS : List PreloadEntry)
    (dynamic_entries_ : DynamicEntryMap) (now : Time) (host : Str) (hashes : HashValueVector)
    (hpre : (GetPreloadSpki canon kPreloadedSTS host [] [] kExactMatchDefault).1 = false)
    (hdyn : (GetDynamicSpki canon dynamic_entries_ now host []).1 = false) :
    CheckSpki canon kPreloadedSTS dynamic_entries_ now host hashes = true := by
  rw [CheckSpki_eq]
  rcases hp : GetPreloadSpki canon kPreloadedSTS host [] [] kExactMatchDefault with ⟨ok, A, B⟩
  rcases hd : GetDynamicSpki canon dynamic_entries_ now host [] with ⟨okd, D⟩
  rw [hp] at hpre
  rw [hd] at hdyn
  simp only at hpre hdyn
  subst hpre hdyn
  rfl

/-- C4 on the code, at `www.example.org`, with tables that hold a preload pin
and a dynamic pin: neither lookup succeeds and the chain passes. -/
theorem CheckSpki_no_policy_witness :
    (GetPreloadSpki CanonicalizeHostname [pinnedRecord] "www.example.org".toList [] []
        kExactMatchDefault).1 = false ∧
      (GetDynamicSpki CanonicalizeHostname [(exampleCom, spkiEntry)] 10
        "www.example.org".toList []).1 = false ∧
      CheckSpki CanonicalizeHostname [pinnedRecord] [(exampleCom, spkiEntry)] 10
        "www.example.org".toList [sha1HashValue [7]] = true :=
  ⟨by decide, by decide,
    CheckSpki_no_policy CanonicalizeHostname [pinnedRecord] [(exampleCom, spkiEntry)] 10
      "www.example.org".toList [sha1HashValue [7]] (by decide) (by decide)⟩

/-! ## Upgrade and strictness -/

theorem GetDynamicUpgrade_eq (canon : Str → Str) (dynamic_entries_ : DynamicEntryMap)
    (now : Time) (host : Str) (exact_match : Bool) :
    GetDynamicUpgrade canon dynamic_entries_ now host exact_match =
      (GetDynamicEntry canon dynamic_entries_ now .UPGRADE_TAG host exact_match).isSome := by
  unfold GetDynamicUpgrade
  cases GetDynamicEntry canon dynamic_entries_ now .UPGRADE_TAG host exact_match <;> rfl

/-- C9: `ShouldUpgrade` holds exactly when the non-exact preload lookup for the
upgrade tag finds a record or the non-exact dynamic lookup for it finds an
entry. -/
theorem ShouldUpgrade_iff (canon : Str → Str) (kPreloadedSTS : List PreloadEntry)
    (dynamic_entries_ : DynamicEntryMap) (now : Time) (host : Str) :
    ShouldUpgrade canon kPreloadedSTS dynamic_entries_ now host = true ↔
      (∃ entry, GetPreloadEntry canon kPreloadedSTS .UPGRADE_TAG host false = some entry) ∨
        (∃ entry, GetDynamicEntry canon dynamic_entries_ now .UPGRADE_TAG host false =
          some entry) := by
  unfold ShouldUpgrade GetPreloadUpgrade kExactMatchDefault
  rw [GetDynamicUpgrade_eq]
  simp [Option.isSome_iff_exists]

namespace DomainNameIterator

/-- A result of the loop comes from a round whose iterator has the name and the
flag of the start, passes `HasNext`, and sits at the start index or later just
behind a dot. -/
theorem forLoop_some {β : Type} (body : DomainNameIterator → Option β) (fuel : Nat)
    (it : DomainNameIterator) (r : β) (h : forLoop body fuel it = some r) :
    ∃ it1 : DomainNameIterator, it1.name_ = it.name_ ∧ it1.exact_match_ = it.exact_match_ ∧
      it1.HasNext = true ∧ body it1 = some r ∧
      (it1.index_ = it.index_ ∨
        (it.index_ < it1.index_ ∧ it.exact_match_ = false ∧
          charAt it.name_ (it1.index_ - 1) = '.')) := by
  induction fuel generalizing it with
  | zero => simp [forLoop] at h
  | succ fuel ih =>
    rw [forLoop] at h
    split at h
    · rename_i hn
      split at h
      · rename_i r1 hb
        cases h
        exact ⟨it, rfl, rfl, hn, hb, Or.inl rfl⟩
      · obtain ⟨it1, h1, h2, h3, h4, h5⟩ := ih it.Advance h
        have hgt := Advance_index_gt it
        simp only [Advance_name, Advance_exact] at h1 h2 h5
        refine ⟨it1, h1, h2, h3, h4, Or.inr ?_⟩
        have hex : it.exact_match_ = false := by
          cases hx : it.exact_match_ with
          | false => rfl
          | true =>
            exfalso
            rcases h5 with h5 | h5
            · have : it1.HasNext = false := by
                unfold HasNext
                rw [h2, hx]
                simp
                omega
              rw [this] at h3
              cases h3
            · rw [hx] at h5
              cases h5.2.1
        rcases h5 with h5 | h5
        · refine ⟨by omega, hex, ?_⟩
          rcases Advance_index_cases it with hc | hc
          · rw [h5]; exact hc.2
          · exfalso
            have : it1.HasNext = false := by
              unfold HasNext
              rw [h2, hex, h1, h5, hc]
              simp
            rw [this] at h3
            cases h3
        · exact ⟨by omega, hex, h5.2.2⟩
    · cases h

/-- With `exact_match_` set, the loop started at index 0 runs its body once. -/
theorem forLoop_exact {β : Type} (body : DomainNameIterator → Option β) (fuel : Nat)
    (it : DomainNameIterator) (hex : it.exact_match_ = true) (hidx : it.index_ = 0) :
    forLoop body (fuel + 1) it = body it := by
  rw [forLoop]
  have hn : it.HasNext = true := by simp [HasNext, hex, hidx]
  rw [if_pos hn]
  cases hb : body it with
  | some r => rfl
  | none =>
    simp only
    cases fuel with
    | zero => rfl
    | succ fuel =>
      rw [forLoop]
      have hn2 : it.Advance.HasNext = false := by
        have := Advance_index_gt it
        simp only [HasNext, Advance_exact, hex, if_true]
        simp
        omega
      simp [hn2]

end DomainNameIterator

/-- A record returned by the scan of the table is one of the table, carries the
candidate name, is in scope, and is what the switch returned. -/
theorem preloadScan_some (tag_index : TagIndex) (name : Str) (isFull : Bool)
    (table : List PreloadEntry) (entry : PreloadEntry)
    (h : preloadScan tag_index name isFull table = some (some entry)) :
    entry ∈ table ∧ entry.name = name ∧ (isFull = true ∨ entry.include_subdomains = true) ∧
      preloadSwitch tag_index entry = some (some entry) := by
  induction table with
  | nil => simp [preloadScan] at h
  | cons e rest ih =>
    rw [preloadScan] at h
    split at h
    · rename_i hc
      split at h
      · rename_i r hs
        cases h
        have he : e = entry := by
          unfold preloadSwitch at hs
          cases tag_index <;> simp only at hs <;> first
            | (split at hs <;> simp at hs; exact hs)
            | simp at hs
        subst he
        exact ⟨List.mem_cons_self _ _, hc.1, hc.2, hs⟩
      · obtain ⟨h1, h2⟩ := ih h
        exact ⟨List.mem_cons_of_mem _ h1, h2⟩
    · obtain ⟨h1, h2⟩ := ih h
      exact ⟨List.mem_cons_of_mem _ h1, h2⟩

theorem dot_ne_NUL : ('.' : Char) ≠ NUL := by decide

/-- A string with a dot at index `j` splits around that dot. -/
theorem split_at_dot (s : Str) (j : Nat) (h : charAt s j = '.') :
    s = s.take j ++ '.' :: s.drop (j + 1) := by
  have hj : j < s.length := by
    by_contra hge
    rw [charAt_of_length_le s j (by omega)] at h
    exact dot_ne_NUL h.symm
  have hget : s[j] = '.' := by
    simpa [charAt, List.getD_eq_getElem?_getD, List.getElem?_eq_getElem hj] using h
  conv_lhs => rw [← List.take_append_drop j s, List.drop_eq_getElem_cons hj, hget]

/-- A record returned by `GetPreloadEntry` belongs to the table, carries data
for the tag, and is named by the whole canonical name or, in a non-exact lookup
and with `include_subdomains` set, by what follows one of its dots. -/
theorem GetPreloadEntry_some (canon : Str → Str) (kPreloadedSTS : List PreloadEntry)
    (tag_index : TagIndex) (host : Str) (exact_match : Bool) (entry : PreloadEntry)
    (h : GetPreloadEntry canon kPreloadedSTS tag_index host exact_match = some entry) :
    entry ∈ kPreloadedSTS ∧ preloadSwitch tag_index entry = some (some entry) ∧
      (entry.name = canon host ∨
        (exact_match = false ∧ entry.include_subdomains = true ∧
          ∃ p : Str, canon host = p ++ '.' :: entry.name)) := by
  unfold GetPreloadEntry at h
  simp only at h
  rcases hl : DomainNameIterator.forLoop
      (fun it => preloadScan tag_index it.GetName it.IsFullHostname kPreloadedSTS)
      (DomainNameIterator.init canon host exact_match).rounds
      (DomainNameIterator.init canon host exact_match) with _ | r
  · rw [hl] at h; cases h
  · rw [hl] at h
    simp only [Option.join] at h
    subst h
    obtain ⟨it1, h1, h2, _, h4, h5⟩ := DomainNameIterator.forLoop_some _ _ _ _ hl
    simp only [DomainNameIterator.init] at h1 h2 h5
    obtain ⟨hm, hname, hscope, hsw⟩ := preloadScan_some _ _ _ _ _ h4
    refine ⟨hm, hsw, ?_⟩
    rcases h5 with h5 | ⟨hlt, hex, hdot⟩
    · left
      rw [hname]
      simp [DomainNameIterator.GetName, h5, h1]
    · right
      have hfull : it1.IsFullHostname = false := by
        simp [DomainNameIterator.IsFullHostname]; omega
      rw [hfull] at hscope
      refine ⟨hex, by simpa using hscope, (canon host).take (it1.index_ - 1), ?_⟩
      have hs := split_at_dot (canon host) (it1.index_ - 1) hdot
      have hi : it1.index_ - 1 + 1 = it1.index_ := by omega
      rw [hi] at hs
      rw [hname]
      simpa [DomainNameIterator.GetName, h1] using hs

/-- An entry returned by `GetDynamicEntry` is stored under the whole canonical
name or, in a non-exact lookup, under what follows one of its dots; its tag of
the queried kind is present, has `now > expiry_`, and has `include_subdomains_`
set unless the key is the whole name. -/
theorem GetDynamicEntry_some (canon : Str → Str) (dynamic_entries_ : DynamicEntryMap)
    (now : Time) (tag_index : TagIndex) (host : Str) (exact_match : Bool)
    (entry : DynamicEntry)
    (h : GetDynamicEntry canon dynamic_entries_ now tag_index host exact_match = some entry) :
    (entry.tags_ tag_index).present_ = true ∧ now > (entry.tags_ tag_index).expiry_ ∧
      (dynamic_entries_.find (canon host) = some entry ∨
        (exact_match = false ∧ (entry.tags_ tag_index).include_subdomains_ = true ∧
          ∃ p key : Str, canon host = p ++ '.' :: key ∧
            dynamic_entries_.find key = some entry)) := by
  unfold GetDynamicEntry at h
  obtain ⟨it1, h1, h2, _, h4, h5⟩ := DomainNameIterator.forLoop_some _ _ _ _ h
  simp only [DomainNameIterator.init] at h1 h2 h5
  unfold dynamicBody at h4
  split at h4
  · rename_i e hfind
    simp only at h4
    split at h4
    · rename_i hc
      cases h4
      simp only [Bool.and_eq_true, decide_eq_true_eq, Bool.or_eq_true] at hc
      refine ⟨hc.1.1, hc.1.2, ?_⟩
      rcases h5 with h5 | ⟨hlt, hex, hdot⟩
      · left
        simpa [DomainNameIterator.GetName, h5, h1] using hfind
      · right
        have hfull : it1.IsFullHostname = false := by
          simp [DomainNameIterator.IsFullHostname]; omega
        refine ⟨hex, by simpa [hfull] using hc.2, (canon host).take (it1.index_ - 1),
          it1.GetName, ?_, hfind⟩
        have hs := split_at_dot (canon host) (it1.index_ - 1) hdot
        have hi : it1.index_ - 1 + 1 = it1.index_ := by omega
        rw [hi] at hs
        simpa [DomainNameIterator.GetName, h1] using hs
    · cases h4
  · cases h4

/-! ## Exact-match lookups -/

/-- C7: with `exact_match = true` the loop over the iterator runs its body
once, on the iterator at index 0, whose name is the whole canonical host name;
so a record returned by `GetPreloadEntry` is named by the whole canonical host
name and an entry returned by `GetDynamicEntry` is the one stored under it. -/
theorem exact_match_examines_full_name_only (canon : Str → Str)
    (kPreloadedSTS : List PreloadEntry) (dynamic_entries_ : DynamicEntryMap) (now : Time)
    (tag_index : TagIndex) (host : Str) :
    (∀ (β : Type) (body : DomainNameIterator → Option β),
      DomainNameIterator.forLoop body (DomainNameIterator.init canon host true).rounds
        (DomainNameIterator.init canon host true) =
        body (DomainNameIterator.init canon host true)) ∧
    (DomainNameIterator.init canon host true).GetName = canon host ∧
    (DomainNameIterator.init canon host true).IsFullHostname = true ∧
    (∀ entry, GetPreloadEntry canon kPreloadedSTS tag_index host true = some entry →
      entry ∈ kPreloadedSTS ∧ entry.name = canon host) ∧
    (∀ entry, GetDynamicEntry canon dynamic_entries_ now tag_index host true = some entry →
      dynamic_entries_.find (canon host) = some entry) := by
  refine ⟨?_, ?_, ?_, ?_, ?_⟩
  · intro β body
    exact DomainNameIterator.forLoop_exact body _ _ rfl rfl
  · simp [DomainNameIterator.GetName, DomainNameIterator.init]
  · rfl
  · intro entry h
    obtain ⟨hm, _, hn⟩ := GetPreloadEntry_some _ _ _ _ _ _ h
    rcases hn with hn | ⟨hex, _⟩
    · exact ⟨hm, hn⟩
    · cases hex
  · intro entry h
    obtain ⟨_, _, hn⟩ := GetDynamicEntry_some _ _ _ _ _ _ _ h
    rcases hn with hn | ⟨hex, _⟩
    · exact hn
    · cases hex

/-! ## Walking over the labels of a subdomain -/

theorem charAt_append_left (l s : Str) (k : Nat) (h : k < l.length) :
    charAt (l ++ s) k = charAt l k := by
  simp [charAt, List.getElem?_append_left h]

theorem charAt_mem (l : Str) (k : Nat) (h : k < l.length) : charAt l k ∈ l := by
  simp [charAt, List.getElem?_eq_getElem h]

namespace DomainNameIterator

/-- The scan crosses `n` characters that are neither dot nor terminator and
stops on the dot or terminator behind them. -/
theorem skipLabel_eq (name : Str) (n fuel i : Nat) (hn : n ≤ fuel)
    (hmid : ∀ k, k < n → charAt name (i + k) ≠ '.' ∧ charAt name (i + k) ≠ NUL)
    (hend : charAt name (i + n) = '.' ∨ charAt name (i + n) = NUL) :
    skipLabel name fuel i = i + n := by
  induction n generalizing fuel i with
  | zero =>
    cases fuel with
    | zero => rfl
    | succ fuel =>
      rw [skipLabel]
      have : (charAt name i != '.' && charAt name i != NUL) = false := by
        rcases hend with h | h <;> simp at h <;> simp [h]
      simp [this]
  | succ n ih =>
    cases fuel with
    | zero => omega
    | succ fuel =>
      rw [skipLabel]
      have h0 := hmid 0 (by omega)
      simp only [Nat.add_zero] at h0
      have : (charAt name i != '.' && charAt name i != NUL) = true := by
        simp [h0.1, h0.2]
      rw [if_pos this]
      rw [ih fuel (i + 1) (by omega)]
      · omega
      · intro k hk
        have := hmid (k + 1) (by omega)
        rwa [show i + 1 + k = i + (k + 1) by omega]
      · rwa [show i + 1 + n = i + (n + 1) by omega]

/-- From the start of a label that is followed by a dot, `Advance` moves to the
character behind that dot. -/
theorem Advance_label (pre l rest : Str) (ex : Bool) (hl : isLabel l) :
    Advance { name_ := pre ++ (l ++ '.' :: rest), index_ := pre.length, exact_match_ := ex } =
      { name_ := pre ++ (l ++ '.' :: rest), index_ := pre.length + l.length + 1,
        exact_match_ := ex } := by
  have hlen : 0 < l.length := List.length_pos.mpr hl.1
  have hskip : skipLabel (pre ++ (l ++ '.' :: rest)) (pre ++ (l ++ '.' :: rest)).length
      (pre.length + 1) = pre.length + 1 + (l.length - 1) := by
    apply skipLabel_eq
    · simp; omega
    · intro k hk
      rw [show pre.length + 1 + k = pre.length + (k + 1) by omega, charAt_append_right,
        charAt_append_left _ _ _ (by omega)]
      exact hl.2 _ (charAt_mem l (k + 1) (by omega))
    · left
      rw [show pre.length + 1 + (l.length - 1) = pre.length + (l.length + 0) by omega,
        charAt_append_right, charAt_append_right, charAt_cons_zero]
  have hdot : charAt (pre ++ (l ++ '.' :: rest)) (pre.length + 1 + (l.length - 1)) = '.' := by
    rw [show pre.length + 1 + (l.length - 1) = pre.length + (l.length + 0) by omega,
      charAt_append_right, charAt_append_right, charAt_cons_zero]
  simp only [Advance, hskip, hdot, beq_self_eq_true, if_true]
  congr 1
  omega

/-- At the start of a label, or of any text whose first character is not the
terminator, a non-exact iterator has a next name. -/
theorem HasNext_at (pre s : Str) (h : charAt s 0 ≠ NUL) :
    HasNext { name_ := pre ++ s, index_ := pre.length, exact_match_ := false } = true := by
  have := charAt_append_right pre s 0
  simp only [Nat.add_zero] at this
  simp [HasNext, this, h]

theorem charAt_zero_of_isLabel (l s : Str) (hl : isLabel l) : charAt (l ++ s) 0 ≠ NUL := by
  have hlen : 0 < l.length := List.length_pos.mpr hl.1
  rw [charAt_append_left _ _ _ hlen]
  exact (hl.2 _ (charAt_mem l 0 hlen)).2

/-- One round of the loop at the start of a label on which the body falls
through: the loop goes on behind the dot that follows the label. -/
theorem forLoop_label {β : Type} (body : DomainNameIterator → Option β) (fuel : Nat)
    (pre l rest : Str) (hl : isLabel l)
    (hb : body { name_ := pre ++ (l ++ '.' :: rest), index_ := pre.length,
                 exact_match_ := false } = none) :
    forLoop body (fuel + 1)
        { name_ := pre ++ (l ++ '.' :: rest), index_ := pre.length, exact_match_ := false } =
      forLoop body fuel
        { name_ := pre ++ (l ++ '.' :: rest), index_ := pre.length + l.length + 1,
          exact_match_ := false } := by
  rw [forLoop, if_pos (HasNext_at pre _ (charAt_zero_of_isLabel l _ hl)), hb,
    Advance_label pre l rest false hl]

end DomainNameIterator

/-! ## Subdomains in the preload table -/

/-- A record of the table that is in scope for the candidate name and carries
data for the tag makes the scan return. -/
theorem preloadScan_found (tag_index : TagIndex) (name : Str) (isFull : Bool)
    (table : List PreloadEntry) (r : PreloadEntry) (hr : r ∈ table) (hname : r.name = name)
    (hscope : isFull = true ∨ r.include_subdomains = true)
    (hdata : preloadSwitch tag_index r = some (some r)) :
    ∃ x, preloadScan tag_index name isFull table = some x := by
  induction table with
  | nil => cases hr
  | cons e rest ih =>
    rw [preloadScan]
    split
    · split
      · exact ⟨_, rfl⟩
      · rename_i hs
        rcases List.mem_cons.mp hr with h | h
        · subst h
          rw [hdata] at hs
          cases hs
        · exact ih h
    · rename_i hc
      rcases List.mem_cons.mp hr with h | h
      · subst h
        exact absurd ⟨hname, hscope⟩ hc
      · exact ih h

/-- When the record `r` is the only one named `name` with data for the tag, the
scan for `name` returns what the switch returns at `r`. -/
theorem preloadScan_unique (tag_index : TagIndex) (name : Str) (isFull : Bool)
    (table : List PreloadEntry) (r : PreloadEntry) (x : Option PreloadEntry) (hr : r ∈ table)
    (hname : r.name = name) (hscope : isFull = true ∨ r.include_subdomains = true)
    (hdata : preloadSwitch tag_index r = some x)
    (honly : ∀ e, e ∈ table → e.name = name → preloadSwitch tag_index e ≠ none → e = r) :
    preloadScan tag_index name isFull table = some x := by
  induction table with
  | nil => cases hr
  | cons e rest ih =>
    have ih1 := fun h => ih h (fun e1 h1 => honly e1 (List.mem_cons_of_mem _ h1))
    rw [preloadScan]
    split
    · rename_i hc
      split
      · rename_i y hs
        have := honly e (List.mem_cons_self _ _) hc.1 (by rw [hs]; simp)
        subst this
        rw [hdata] at hs
        exact hs.symm
      · rename_i hs
        rcases List.mem_cons.mp hr with h | h
        · subst h
          rw [hdata] at hs
          cases hs
        · exact ih1 h
    · rename_i hc
      rcases List.mem_cons.mp hr with h | h
      · subst h
        exact absurd ⟨hname, hscope⟩ hc
      · exact ih1 h

/-- For a tag other than `TACK_1_TAG` the scan never gives `return NULL`. -/
theorem preloadScan_ne_some_none (tag_index : TagIndex) (htag : tag_index ≠ .TACK_1_TAG)
    (name : Str) (isFull : Bool) (table : List PreloadEntry) :
    preloadScan tag_index name isFull table ≠ some none := by
  induction table with
  | nil => simp [preloadScan]
  | cons e rest ih =>
    rw [preloadScan]
    split
    · split
      · rename_i r hs
        intro h
        cases h
        unfold preloadSwitch at hs
        cases tag_index <;> simp only at hs <;> first
          | (split at hs <;> simp at hs)
          | exact htag rfl
      · exact ih
    · exact ih

namespace DomainNameIterator

/-- The walk over a name `labels.….base` comes to `base`: when the body
returns at the start of `base`, the loop returns something. -/
theorem forLoop_subdomain {β : Type} (body : DomainNameIterator → Option β) (base : Str)
    (hbase : charAt base 0 ≠ NUL)
    (hbody : ∀ pre : Str, ∃ x,
      body { name_ := pre ++ base, index_ := pre.length, exact_match_ := false } = some x)
    (labels : List Str) (hlabels : ∀ l, l ∈ labels → isLabel l) (pre : Str) (fuel : Nat)
    (hfuel : (pre ++ subdomainOf labels base).length + 1 ≤ fuel + pre.length) :
    ∃ x, forLoop body fuel
      { name_ := pre ++ subdomainOf labels base, index_ := pre.length,
        exact_match_ := false } = some x := by
  induction labels generalizing pre fuel with
  | nil =>
    cases fuel with
    | zero => simp at hfuel; omega
    | succ fuel =>
      obtain ⟨x, hx⟩ := hbody pre
      refine ⟨x, ?_⟩
      simp only [subdomainOf, List.foldr_nil]
      rw [forLoop, if_pos (HasNext_at pre base hbase), hx]
  | cons l ls ih =>
    cases fuel with
    | zero => simp at hfuel; omega
    | succ fuel =>
      have hl : isLabel l := hlabels l (List.mem_cons_self _ _)
      have hname : subdomainOf (l :: ls) base = l ++ '.' :: subdomainOf ls base := rfl
      rw [hname]
      cases hb : body { name_ := pre ++ (l ++ '.' :: subdomainOf ls base),
                        index_ := pre.length, exact_match_ := false } with
      | some x =>
        refine ⟨x, ?_⟩
        rw [forLoop, if_pos (HasNext_at pre _ (charAt_zero_of_isLabel l _ hl)), hb]
      | none =>
        rw [forLoop_label body fuel pre l _ hl hb]
        have hpre : pre ++ (l ++ '.' :: subdomainOf ls base) =
            (pre ++ l ++ ['.']) ++ subdomainOf ls base := by simp
        have hlen : pre.length + l.length + 1 = (pre ++ l ++ ['.']).length := by
          simp only [List.length_append, List.length_singleton]
        rw [hpre, hlen]
        apply ih (fun l1 h1 => hlabels l1 (List.mem_cons_of_mem _ h1))
        rw [hname, hpre] at hfuel
        simp at hfuel ⊢
        omega

end DomainNameIterator

/-- A record with `include_subdomains` and data for the tag answers, or lets a
more specific record answer, the non-exact lookup of every name made of labels
in front of its own name. -/
theorem GetPreloadEntry_subdomain (canon : Str → Str) (kPreloadedSTS : List PreloadEntry)
    (tag_index : TagIndex) (r : PreloadEntry) (hr : r ∈ kPreloadedSTS)
    (hincl : r.include_subdomains = true)
    (hdata : preloadSwitch tag_index r = some (some r)) (hname : charAt r.name 0 ≠ NUL)
    (labels : List Str) (hlabels : ∀ l, l ∈ labels → isLabel l) (host : Str)
    (hhost : canon host = subdomainOf labels r.name) :
    ∃ entry, GetPreloadEntry canon kPreloadedSTS tag_index host false = some entry := by
  have htag : tag_index ≠ .TACK_1_TAG := by
    intro h
    rw [h] at hdata
    simp [preloadSwitch] at hdata
  unfold GetPreloadEntry
  simp only [DomainNameIterator.init, DomainNameIterator.rounds, hhost]
  obtain ⟨x, hx⟩ := DomainNameIterator.forLoop_subdomain
    (fun it => preloadScan tag_index it.GetName it.IsFullHostname kPreloadedSTS) r.name hname
    (by
      intro pre
      simp only [DomainNameIterator.GetName, List.drop_left]
      exact preloadScan_found _ _ _ _ r hr rfl (Or.inr hincl) hdata)
    labels hlabels [] ((subdomainOf labels r.name).length + 1) (by simp)
  simp only [List.nil_append, List.length_nil] at hx
  rw [hx]
  obtain ⟨it1, _, _, _, h4, _⟩ := DomainNameIterator.forLoop_some _ _ _ _ hx
  cases x with
  | none => exact absurd h4 (preloadScan_ne_some_none tag_index htag _ _ _)
  | some e => exact ⟨e, rfl⟩

/-! ## Lookups that find nothing -/

/-- Nothing is found in an empty dynamic table. -/
theorem GetDynamicEntry_nil (canon : Str → Str) (now : Time) (tag_index : TagIndex)
    (host : Str) (exact_match : Bool) :
    GetDynamicEntry canon [] now tag_index host exact_match = none := by
  cases h : GetDynamicEntry canon [] now tag_index host exact_match with
  | none => rfl
  | some e =>
    obtain ⟨_, _, hk⟩ := GetDynamicEntry_some _ _ _ _ _ _ _ h
    rcases hk with hk | ⟨_, _, _, _, _, hk⟩ <;> simp [DynamicEntryMap.find] at hk

/-- No record is found for a host when no record name is a suffix of its
canonical name. -/
theorem GetPreloadEntry_none_of_no_suffix (canon : Str → Str)
    (kPreloadedSTS : List PreloadEntry) (tag_index : TagIndex) (host : Str)
    (exact_match : Bool) (h : ∀ e, e ∈ kPreloadedSTS → ¬ e.name <:+ canon host) :
    GetPreloadEntry canon kPreloadedSTS tag_index host exact_match = none := by
  cases hg : GetPreloadEntry canon kPreloadedSTS tag_index host exact_match with
  | none => rfl
  | some e =>
    exfalso
    obtain ⟨hm, _, hn⟩ := GetPreloadEntry_some _ _ _ _ _ _ hg
    apply h e hm
    rcases hn with hn | ⟨_, _, p, hp⟩
    · rw [hn]
    · rw [hp]
      exact ⟨p ++ ['.'], by simp⟩

/-! ## Merge -/

/-- What `Merge` returns: the flag tells whether one of the three fields
differs from its argument, the three fields take the arguments, and `created_`
becomes `now` exactly when the flag is set. -/
theorem Merge_eq (tag : DynamicTag) (present include_subdomains : Bool) (now expiry : Time) :
    tag.Merge present include_subdomains now expiry =
      (!(decide (tag.present_ = present) && decide (tag.include_subdomains_ = include_subdomains)
          && decide (tag.expiry_ = expiry)),
        { present_ := present, include_subdomains_ := include_subdomains,
          created_ := if tag.present_ = present ∧ tag.include_subdomains_ = include_subdomains ∧
            tag.expiry_ = expiry then tag.created_ else now,
          expiry_ := expiry }) := by
  obtain ⟨p, i, c, e⟩ := tag
  by_cases he : e = expiry <;> cases p <;> cases i <;> cases present <;>
    cases include_subdomains <;> simp [DynamicTag.Merge, he]

/-- C15: once `Merge(present, include_subdomains, now1, expiry)` has run, a
second `Merge(present, include_subdomains, now2, expiry)` with any `now2`
returns false and leaves the tag, `created_` included, as it is. -/
theorem Merge_idempotent (tag : DynamicTag) (present include_subdomains : Bool)
    (now1 now2 expiry : Time) :
    ((tag.Merge present include_subdomains now1 expiry).2.Merge present include_subdomains now2
      expiry) = (false, (tag.Merge present include_subdomains now1 expiry).2) := by
  rw [Merge_eq tag, Merge_eq]
  simp

/-- C16: `Merge` returns true exactly when one of `present_`,
`include_subdomains_`, `expiry_` differs from its argument; afterwards the
three fields equal the arguments; `created_` is `now` when it returned true and
its previous value when it returned false. -/
theorem Merge_contract (tag : DynamicTag) (present include_subdomains : Bool)
    (now expiry : Time) :
    ((tag.Merge present include_subdomains now expiry).1 = true ↔
      (tag.present_ ≠ present ∨ tag.include_subdomains_ ≠ include_subdomains ∨
        tag.expiry_ ≠ expiry)) ∧
    (tag.Merge present include_subdomains now expiry).2.present_ = present ∧
    (tag.Merge present include_subdomains now expiry).2.include_subdomains_ =
      include_subdomains ∧
    (tag.Merge present include_subdomains now expiry).2.expiry_ = expiry ∧
    ((tag.Merge present include_subdomains now expiry).1 = true →
      (tag.Merge present include_subdomains now expiry).2.created_ = now) ∧
    ((tag.Merge present include_subdomains now expiry).1 = false →
      (tag.Merge present include_subdomains now expiry).2.created_ = tag.created_) := by
  rw [Merge_eq]
  refine ⟨?_, rfl, rfl, rfl, ?_, ?_⟩
  · simp only [Bool.not_eq_true', Bool.and_eq_false_iff, decide_eq_false_iff_not, ne_eq]
    tauto
  · intro h
    simp only [Bool.not_eq_true', Bool.and_eq_false_iff, decide_eq_false_iff_not] at h
    have : ¬ (tag.present_ = present ∧ tag.include_subdomains_ = include_subdomains ∧
        tag.expiry_ = expiry) := by tauto
    simp only [if_neg this]
  · intro h
    simp only [Bool.not_eq_false', Bool.and_eq_true, decide_eq_true_eq] at h
    have : tag.present_ = present ∧ tag.include_subdomains_ = include_subdomains ∧
        tag.expiry_ = expiry := ⟨h.1.1, h.1.2, h.2⟩
    simp only [if_pos this]

/-! ## The dynamic table as a map -/

theorem find_put_self (m : DynamicEntryMap) (key : Str) (entry : DynamicEntry) :
    (m.put key entry).find key = some entry := by
  induction m with
  | nil => simp [DynamicEntryMap.put, DynamicEntryMap.find]
  | cons node rest ih =>
    obtain ⟨k, e⟩ := node
    unfold DynamicEntryMap.put
    split
    · simp [DynamicEntryMap.find]
    · rename_i hk
      split
      · simp [DynamicEntryMap.find]
      · simp only [DynamicEntryMap.find, if_neg hk]
        exact ih

theorem find_put_other (m : DynamicEntryMap) (key other : Str) (entry : DynamicEntry)
    (h : other ≠ key) : (m.put key entry).find other = m.find other := by
  induction m with
  | nil => simp [DynamicEntryMap.put, DynamicEntryMap.find, Ne.symm h]
  | cons node rest ih =>
    obtain ⟨k, e⟩ := node
    unfold DynamicEntryMap.put
    split
    · rename_i hk
      subst hk
      simp [DynamicEntryMap.find, Ne.symm h]
    · split
      · simp [DynamicEntryMap.find, Ne.symm h]
      · simp only [DynamicEntryMap.find, ih]

theorem mem_put (m : DynamicEntryMap) (key : Str) (entry : DynamicEntry)
    (node : Str × DynamicEntry) (h : node ∈ m.put key entry) :
    node = (key, entry) ∨ node ∈ m := by
  induction m with
  | nil =>
    simp only [DynamicEntryMap.put, List.mem_singleton] at h
    exact Or.inl h
  | cons n rest ih =>
    obtain ⟨k, e⟩ := n
    unfold DynamicEntryMap.put at h
    split at h
    · rcases List.mem_cons.mp h with h | h
      · exact Or.inl h
      · exact Or.inr (List.mem_cons_of_mem _ h)
    · split at h
      · rcases List.mem_cons.mp h with h | h
        · exact Or.inl h
        · exact Or.inr h
      · rcases List.mem_cons.mp h with h | h
        · exact Or.inr (h ▸ List.mem_cons_self _ _)
        · rcases ih h with h | h
          · exact Or.inl h
          · exact Or.inr (List.mem_cons_of_mem _ h)

theorem mem_put_self (m : DynamicEntryMap) (key : Str) (entry : DynamicEntry) :
    (key, entry) ∈ m.put key entry := by
  induction m with
  | nil => simp [DynamicEntryMap.put]
  | cons node rest ih =>
    obtain ⟨k, e⟩ := node
    unfold DynamicEntryMap.put
    split
    · simp
    · split
      · simp
      · exact List.mem_cons_of_mem _ ih

/-! ## Clear -/

/-- C11 as stated fails: on an engine whose dynamic table is already empty and
whose delegate has received no call, `Clear` makes the delegate receive one. -/
theorem Clear_notifies_on_empty_table :
    (Clear { dynamic_entries_ := [], delegate_ := some 0 }).dynamic_entries_ = [] ∧
      (Clear { dynamic_entries_ := [], delegate_ := some 0 }).delegate_ = some 1 := by
  decide

/-- C11 amended: `Clear` leaves the dynamic table empty and fires the change
notification once, whatever the table held before: a delegate, when one is
set, has received exactly one more `StateIsDirty` call. -/
theorem Clear_empties_and_notifies (s : TransportSecurityState) :
    (Clear s).dynamic_entries_ = [] ∧
      (Clear s).delegate_ = s.delegate_.map (fun calls => calls + 1) := by
  unfold Clear DirtyNotify
  cases h : s.delegate_ <;> simp [h]

/-- C12: after `Clear` the dynamic lookup of every tag returns nothing, for
every host and either value of `exact_match`, and `ShouldUpgrade`,
`IsStrictOnErrors` and `CheckSpki` return what they return on the same preload
table with an empty dynamic table; `ShouldUpgrade` is then the preload upgrade
lookup alone. -/
theorem Clear_falls_back_to_preload (canon : Str → Str) (kPreloadedSTS : List PreloadEntry)
    (s : TransportSecurityState) (now : Time) (host : Str) (hashes : HashValueVector) :
    (∀ tag_index exact_match,
      GetDynamicEntry canon (Clear s).dynamic_entries_ now tag_index host exact_match = none) ∧
    ShouldUpgrade canon kPreloadedSTS (Clear s).dynamic_entries_ now host =
      ShouldUpgrade canon kPreloadedSTS [] now host ∧
    IsStrictOnErrors canon kPreloadedSTS (Clear s).dynamic_entries_ now host =
      IsStrictOnErrors canon kPreloadedSTS [] now host ∧
    CheckSpki canon kPreloadedSTS (Clear s).dynamic_entries_ now host hashes =
      CheckSpki canon kPreloadedSTS [] now host hashes ∧
    ShouldUpgrade canon kPreloadedSTS (Clear s).dynamic_entries_ now host =
      GetPreloadUpgrade canon kPreloadedSTS host false := by
  have hc : (Clear s).dynamic_entries_ = [] := by
    unfold Clear DirtyNotify
    cases h : s.delegate_ <;> simp [h]
  rw [hc]
  refine ⟨fun tag_index exact_match => GetDynamicEntry_nil canon now tag_index host exact_match,
    rfl, rfl, rfl, ?_⟩
  unfold ShouldUpgrade kExactMatchDefault
  rw [GetDynamicUpgrade_eq, GetDynamicEntry_nil]
  simp

/-! ## AddHSTSHeader and AddHPKPHeader -/

/-- C17: `AddHPKPHeader` with a parsed tuple `(hashes, present, expiry)` merges
`(present, false, now, expiry)` into the SPKI tag of the entry for the
canonical host and stores the entry under that key, leaving the other tags,
the keys of the entry and the entries of other hosts as they were. When the
merge reports a change, `hashes_` becomes the new hashes and the notification
fires once; when it reports none, `hashes_` keeps its value and no
notification fires. -/
theorem AddHPKPHeader_replaces_hashes_on_change (canon : Str → Str)
    (s : TransportSecurityState) (now : Time) (host : Str) (hashes : HashValueVector)
    (present : Bool) (expiry : Time) :
    (AddHPKPHeader canon s now host (some (hashes, present, expiry))).1 = true ∧
    (∃ entry,
      (AddHPKPHeader canon s now host (some (hashes, present, expiry))).2.dynamic_entries_.find
          (canon host) = some entry ∧
      entry.tag_spki =
        ((s.dynamic_entries_.subscript (canon host)).tag_spki.Merge present false now expiry).2 ∧
      entry.tag_upgrade = (s.dynamic_entries_.subscript (canon host)).tag_upgrade ∧
      entry.tag_tack_0 = (s.dynamic_entries_.subscript (canon host)).tag_tack_0 ∧
      entry.tag_tack_1 = (s.dynamic_entries_.subscript (canon host)).tag_tack_1 ∧
      entry.tack_keys_ = (s.dynamic_entries_.subscript (canon host)).tack_keys_ ∧
      (((s.dynamic_entries_.subscript (canon host)).tag_spki.Merge present false now expiry).1 = true →
        entry.hashes_ = hashes ∧
        (AddHPKPHeader canon s now host (some (hashes, present, expiry))).2.delegate_ =
          s.delegate_.map (fun calls => calls + 1)) ∧
      (((s.dynamic_entries_.subscript (canon host)).tag_spki.Merge present false now expiry).1 = false →
        entry.hashes_ = (s.dynamic_entries_.subscript (canon host)).hashes_ ∧
        (AddHPKPHeader canon s now host (some (hashes, present, expiry))).2.delegate_ =
          s.delegate_)) ∧
    (∀ other, other ≠ canon host →
      (AddHPKPHeader canon s now host (some (hashes, present, expiry))).2.dynamic_entries_.find
        other = s.dynamic_entries_.find other) := by
  unfold AddHPKPHeader
  simp only [DynamicEntry.tags_]
  cases hm : ((s.dynamic_entries_.subscript (canon host)).tag_spki.Merge present false now expiry).1
  · simp only [Bool.false_eq_true, if_false]
    refine ⟨trivial, ⟨(s.dynamic_entries_.subscript (canon host)).setTag .SPKI_TAG
      ((s.dynamic_entries_.subscript (canon host)).tag_spki.Merge present false now expiry).2,
      find_put_self _ _ _, rfl, rfl, rfl, rfl, rfl, ?_, ?_⟩, ?_⟩
    · intro h; cases h
    · intro _
      refine ⟨?_, ?_⟩ <;> first | rfl | trivial
    · intro other ho
      exact find_put_other _ _ _ _ ho
  · simp only [if_true]
    refine ⟨trivial, ⟨{ (s.dynamic_entries_.subscript (canon host)).setTag .SPKI_TAG
      ((s.dynamic_entries_.subscript (canon host)).tag_spki.Merge present false now expiry).2 with
        hashes_ := hashes }, ?_, rfl, rfl, rfl, rfl, rfl, ?_, ?_⟩, ?_⟩
    · unfold DirtyNotify
      cases hd : s.delegate_ <;> simp only [hd] <;> exact find_put_self _ _ _
    · intro _
      refine ⟨rfl, ?_⟩
      unfold DirtyNotify
      cases hd : s.delegate_ <;> simp [hd]
    · intro h; cases h
    · intro other ho
      unfold DirtyNotify
      cases hd : s.delegate_ <;> simp only [hd] <;> exact find_put_other _ _ _ _ ho

@[simp] theorem DirtyNotify_entries (s : TransportSecurityState) :
    (DirtyNotify s).dynamic_entries_ = s.dynamic_entries_ := by
  unfold DirtyNotify
  cases h : s.delegate_ <;> simp [h]

theorem AddHSTSHeader_entries (canon : Str → Str) (s : TransportSecurityState) (now : Time)
    (host : Str) (present : Bool) (expiry : Time) (include_subdomains : Bool) :
    (AddHSTSHeader canon s now host (some (present, expiry, include_subdomains))).2.dynamic_entries_
      = s.dynamic_entries_.put (canon host)
          ((s.dynamic_entries_.subscript (canon host)).setTag .UPGRADE_TAG
            ((s.dynamic_entries_.subscript (canon host)).tag_upgrade.Merge present include_subdomains
              now expiry).2) := by
  unfold AddHSTSHeader
  simp only [DynamicEntry.tags_]
  split <;> simp

theorem AddHPKPHeader_entries (canon : Str → Str) (s : TransportSecurityState) (now : Time)
    (host : Str) (hashes : HashValueVector) (present : Bool) (expiry : Time) :
    ∃ hashes1, (AddHPKPHeader canon s now host (some (hashes, present, expiry))).2.dynamic_entries_
      = s.dynamic_entries_.put (canon host)
          { (s.dynamic_entries_.subscript (canon host)).setTag .SPKI_TAG
            ((s.dynamic_entries_.subscript (canon host)).tag_spki.Merge present false now expiry).2
            with hashes_ := hashes1 } := by
  unfold AddHPKPHeader
  simp only [DynamicEntry.tags_]
  split
  · exact ⟨hashes, by simp⟩
  · exact ⟨(s.dynamic_entries_.subscript (canon host)).hashes_, rfl⟩

/-! ## DeleteSince -/

theorem DeleteSinceMark_fields (time : Time) (tag_index : TagIndex) (st : DeleteSinceRound) :
    (DeleteSinceMark time tag_index st).key = st.key ∧
      (DeleteSinceMark time tag_index st).entry_erased = st.entry_erased ∧
      (DeleteSinceMark time tag_index st).at_entry = st.at_entry ∧
      (DeleteSinceMark time tag_index st).passed = st.passed ∧
      (DeleteSinceMark time tag_index st).rest = st.rest ∧
      (st.empty_entry = false → (DeleteSinceMark time tag_index st).empty_entry = false) := by
  unfold DeleteSinceMark
  split
  · split <;> simp
  · simp

/-- What one pass over a tag does when it is defined: the node of `entry` had
not been erased, the key stays, and either `iter` leaves the node of `entry`
(erasing it exactly when `empty_entry` holds), or it takes the next node from
`rest`, into `passed` unless `empty_entry` holds. -/
theorem DeleteSinceTag_some (time : Time) (tag_index : TagIndex) (st st1 : DeleteSinceRound)
    (h : DeleteSinceTag time tag_index st = some st1) :
    st.entry_erased = false ∧ st1.key = st.key ∧ st1.at_entry = false ∧
      (st.empty_entry = false → st1.empty_entry = false) ∧
      ((st.at_entry = true ∧ st1.passed = st.passed ∧ st1.rest = st.rest ∧
          st1.entry_erased = st1.empty_entry) ∨
        (st.at_entry = false ∧ st1.entry_erased = false ∧
          ∃ node, st.rest = node :: st1.rest ∧
            (st1.empty_entry = false → st1.passed = st.passed ++ [node]))) := by
  unfold DeleteSinceTag at h
  split at h
  · cases h
  · rename_i he
    simp only [Bool.not_eq_true] at he
    obtain ⟨m1, m2, m3, m4, m5, m6⟩ := DeleteSinceMark_fields time tag_index st
    generalize DeleteSinceMark time tag_index st = sm at h m1 m2 m3 m4 m5 m6
    unfold DeleteSinceAdvance at h
    refine ⟨he, ?_⟩
    split at h
    · rename_i ha
      split at h
      · rename_i hem
        cases h
        refine ⟨m1, rfl, ?_, Or.inl ⟨m3 ▸ ha, m4, m5, hem.symm⟩⟩
        intro h0
        rw [m6 h0] at hem
        cases hem
      · rename_i hem
        cases h
        simp only [Bool.not_eq_true] at hem
        exact ⟨m1, rfl, fun _ => hem, Or.inl ⟨m3 ▸ ha, m4, m5, by rw [m2, he, hem]⟩⟩
    · rename_i ha
      simp only [Bool.not_eq_true] at ha
      split at h
      · cases h
      · rename_i node rest hr
        split at h
        · rename_i hem
          cases h
          refine ⟨m1, ha, ?_, Or.inr ⟨m3 ▸ ha, by rw [← he, ← m2], node, by rw [← m5, hr], ?_⟩⟩
          · intro h0
            rw [m6 h0] at hem
            cases hem
          · intro h0
            simp only at h0
            rw [h0] at hem
            cases hem
        · rename_i hem
          cases h
          simp only [Bool.not_eq_true] at hem
          exact ⟨m1, ha, fun _ => hem,
            Or.inr ⟨m3 ▸ ha, by rw [← he, ← m2], node, by rw [← m5, hr], fun _ => by rw [m4]⟩⟩

/-- A defined round of the `while` loop erases nothing: the node of `entry`
stays, and the nodes that `iter` went over are all kept. -/
theorem DeleteSinceFor_some (time : Time) (key : Str) (entry : DynamicEntry)
    (rest : DynamicEntryMap) (dirtied : Bool) (st : DeleteSinceRound)
    (h : DeleteSinceFor time key entry rest dirtied = some st) :
    st.entry_erased = false ∧ st.key = key ∧ st.passed ++ st.rest = rest := by
  unfold DeleteSinceFor at h
  simp only [Option.bind_eq_some] at h
  obtain ⟨s3, ⟨s2, ⟨s1, h1, h2⟩, h3⟩, h4⟩ := h
  obtain ⟨_, k1, a1, _, c1⟩ := DeleteSinceTag_some _ _ _ _ h1
  obtain ⟨e1, k2, a2, f2, c2⟩ := DeleteSinceTag_some _ _ _ _ h2
  obtain ⟨e2, k3, a3, f3, c3⟩ := DeleteSinceTag_some _ _ _ _ h3
  obtain ⟨e3, k4, a4, f4, c4⟩ := DeleteSinceTag_some _ _ _ _ h4
  simp only at k1
  rcases c1 with ⟨_, p1, r1, x1⟩ | ⟨y, _⟩
  swap
  · simp at y
  simp only at p1 r1
  have em1 : s1.empty_entry = false := by rw [← x1, e1]
  rcases c2 with ⟨y, _⟩ | ⟨_, _, n2, r2, p2⟩
  · rw [a1] at y; cases y
  rcases c3 with ⟨y, _⟩ | ⟨_, _, n3, r3, p3⟩
  · rw [a2] at y; cases y
  rcases c4 with ⟨y, _⟩ | ⟨_, x4, n4, r4, p4⟩
  · rw [a3] at y; cases y
  have em2 := f2 em1
  have em3 := f3 em2
  have em4 := f4 em3
  refine ⟨x4, by rw [k4, k3, k2, k1], ?_⟩
  rw [p4 em4, p3 em3, p2 em2, p1, ← r1, r2, r3, r4]
  simp

/-- The bound on the rounds of the `while` loop of `DeleteSince` is never what
ends it: with as many rounds as there are nodes from `iter` on, one more
changes nothing. -/
theorem DeleteSinceWhile_fuel (time : Time) (fuel : Nat) (before l : DynamicEntryMap)
    (dirtied : Bool) (h : l.length ≤ fuel) :
    DeleteSinceWhile time (fuel + 1) before l dirtied =
      DeleteSinceWhile time fuel before l dirtied := by
  induction fuel generalizing before l dirtied with
  | zero =>
    cases l with
    | nil => simp [DeleteSinceWhile]
    | cons node rest => simp at h
  | succ fuel ih =>
    cases l with
    | nil => simp [DeleteSinceWhile]
    | cons node rest =>
      obtain ⟨key, entry⟩ := node
      rw [DeleteSinceWhile]
      conv_rhs => rw [DeleteSinceWhile]
      cases hf : DeleteSinceFor time key entry rest dirtied with
      | none => rfl
      | some st =>
        simp only
        apply ih
        obtain ⟨_, _, hr⟩ := DeleteSinceFor_some _ _ _ _ _ _ hf
        have := congrArg List.length hr
        simp at this h
        omega

/-- A defined run of the `while` loop of `DeleteSince` keeps every key: no
node is erased. -/
theorem DeleteSinceWhile_keys (time : Time) (fuel : Nat) (before l : DynamicEntryMap)
    (dirtied : Bool) (m : DynamicEntryMap) (d : Bool)
    (h : DeleteSinceWhile time fuel before l dirtied = some (m, d)) :
    m.map Prod.fst = (before ++ l).map Prod.fst := by
  induction fuel generalizing before l dirtied with
  | zero =>
    cases l with
    | nil =>
      simp only [DeleteSinceWhile, Option.some.injEq, Prod.mk.injEq] at h
      simp [h.1]
    | cons node rest => simp [DeleteSinceWhile] at h
  | succ fuel ih =>
    cases l with
    | nil =>
      simp only [DeleteSinceWhile, Option.some.injEq, Prod.mk.injEq] at h
      simp [h.1]
    | cons node rest =>
      obtain ⟨key, entry⟩ := node
      rw [DeleteSinceWhile] at h
      cases hf : DeleteSinceFor time key entry rest dirtied with
      | none => rw [hf] at h; cases h
      | some st =>
        rw [hf] at h
        simp only at h
        obtain ⟨he, hk, hr⟩ := DeleteSinceFor_some _ _ _ _ _ _ hf
        rw [ih _ _ _ h, he, hk, ← hr]
        simp

/-- Whenever `DeleteSince` is defined it leaves every key of the dynamic table
in place: no entry is removed. -/
theorem DeleteSince_keeps_keys (s s1 : TransportSecurityState) (time : Time)
    (h : DeleteSince s time = some s1) :
    s1.dynamic_entries_.map Prod.fst = s.dynamic_entries_.map Prod.fst := by
  unfold DeleteSince at h
  split at h
  · cases h
  · rename_i m dirtied hw
    simp only [Option.some.injEq] at h
    subst h
    have := DeleteSinceWhile_keys _ _ _ _ _ _ _ hw
    split <;> simpa using this

theorem DeleteSinceMark_upgrade (time : Time) (tag_index : TagIndex) (st : DeleteSinceRound)
    (h : tag_index ≠ .UPGRADE_TAG) :
    (DeleteSinceMark time tag_index st).entry.tag_upgrade = st.entry.tag_upgrade := by
  unfold DeleteSinceMark
  split
  · split
    · cases tag_index <;> first | exact absurd rfl h | rfl
    · rfl
  · rfl

theorem DeleteSinceAdvance_entry (st st1 : DeleteSinceRound)
    (h : DeleteSinceAdvance st = some st1) : st1.entry = st.entry := by
  unfold DeleteSinceAdvance at h
  split at h
  · split at h <;> cases h <;> rfl
  · split at h
    · cases h
    · split at h <;> cases h <;> rfl

/-- A pass over a tag other than the upgrade tag leaves the upgrade tag of
`entry` as it is. -/
theorem DeleteSinceTag_upgrade (time : Time) (tag_index : TagIndex) (st st1 : DeleteSinceRound)
    (htag : tag_index ≠ .UPGRADE_TAG) (h : DeleteSinceTag time tag_index st = some st1) :
    st1.entry.tag_upgrade = st.entry.tag_upgrade := by
  unfold DeleteSinceTag at h
  split at h
  · cases h
  · rw [DeleteSinceAdvance_entry _ _ h, DeleteSinceMark_upgrade _ _ _ htag]

/-- The pass over the upgrade tag at the start of a round leaves the node of
`entry` in the map only when that tag is present (and was created before
`time`). -/
theorem DeleteSinceTag_first (time : Time) (st st1 : DeleteSinceRound)
    (hat : st.at_entry = true) (hem : st.empty_entry = true)
    (h : DeleteSinceTag time .UPGRADE_TAG st = some st1) (hkept : st1.entry_erased = false) :
    st1.entry.tag_upgrade.present_ = true := by
  unfold DeleteSinceTag at h
  split at h
  · cases h
  · have he := DeleteSinceAdvance_entry _ _ h
    unfold DeleteSinceAdvance at h
    unfold DeleteSinceMark at h he
    simp only [DynamicEntry.tags_] at h he
    by_cases hp : st.entry.tag_upgrade.present_ = true
    · by_cases hc : st.entry.tag_upgrade.created_ ≥ time
      · simp only [hp, hc, if_true, hat, hem] at h
        cases h
        simp at hkept
      · simp only [hp, hc, if_true, if_false] at he
        rw [he]
        exact hp
    · simp only [hp, if_false, hat, hem, if_true, Bool.false_eq_true] at h
      cases h
      simp at hkept

/-- After a defined round of the `while` loop the upgrade tag of `entry` is
present. -/
theorem DeleteSinceFor_leader (time : Time) (key : Str) (entry : DynamicEntry)
    (rest : DynamicEntryMap) (dirtied : Bool) (st : DeleteSinceRound)
    (h : DeleteSinceFor time key entry rest dirtied = some st) :
    st.entry.tag_upgrade.present_ = true := by
  unfold DeleteSinceFor at h
  simp only [Option.bind_eq_some] at h
  obtain ⟨s3, ⟨s2, ⟨s1, h1, h2⟩, h3⟩, h4⟩ := h
  obtain ⟨e1, _⟩ := DeleteSinceTag_some _ _ _ _ h2
  have p1 := DeleteSinceTag_first _ _ _ rfl rfl h1 e1
  rw [DeleteSinceTag_upgrade _ _ _ _ (by decide) h4, DeleteSinceTag_upgrade _ _ _ _ (by decide) h3,
    DeleteSinceTag_upgrade _ _ _ _ (by decide) h2]
  exact p1

/-- A defined run of the `while` loop of `DeleteSince` ends with a map in which
every entry has a present tag, when that holds of the nodes in front of `iter`
and of those from `iter` on. -/
theorem DeleteSinceWhile_present (time : Time) (fuel : Nat) (before l : DynamicEntryMap)
    (dirtied : Bool) (m : DynamicEntryMap) (d : Bool)
    (h : DeleteSinceWhile time fuel before l dirtied = some (m, d))
    (hb : ∀ node ∈ before, node.2.noTagPresent = false)
    (hl : ∀ node ∈ l, node.2.noTagPresent = false) :
    ∀ node ∈ m, node.2.noTagPresent = false := by
  induction fuel generalizing before l dirtied with
  | zero =>
    cases l with
    | nil =>
      simp only [DeleteSinceWhile, Option.some.injEq, Prod.mk.injEq] at h
      rw [← h.1]
      exact hb
    | cons node rest => simp [DeleteSinceWhile] at h
  | succ fuel ih =>
    cases l with
    | nil =>
      simp only [DeleteSinceWhile, Option.some.injEq, Prod.mk.injEq] at h
      rw [← h.1]
      exact hb
    | cons node rest =>
      obtain ⟨key, entry⟩ := node
      rw [DeleteSinceWhile] at h
      cases hf : DeleteSinceFor time key entry rest dirtied with
      | none => rw [hf] at h; cases h
      | some st =>
        rw [hf] at h
        simp only at h
        obtain ⟨he, hk, hr⟩ := DeleteSinceFor_some _ _ _ _ _ _ hf
        have hlead := DeleteSinceFor_leader _ _ _ _ _ _ hf
        have hrest : ∀ node ∈ rest, node.2.noTagPresent = false :=
          fun node hn => hl node (List.mem_cons_of_mem _ hn)
        refine ih _ _ _ h ?_ ?_
        · intro node hn
          rw [he] at hn
          simp only [Bool.false_eq_true, if_false, List.mem_append, List.mem_singleton] at hn
          rcases hn with (hn | hn) | hn
          · exact hb node hn
          · subst hn
            simp [DynamicEntry.noTagPresent, hlead]
          · exact hrest node (hr ▸ List.mem_append_left _ hn)
        · intro node hn
          exact hrest node (hr ▸ List.mem_append_right _ hn)

/-- Every defined run of `DeleteSince` on a table without an entry that has all
four tags absent ends with such a table. -/
theorem DeleteSince_present (s s1 : TransportSecurityState) (time : Time)
    (hinv : ∀ node ∈ s.dynamic_entries_, node.2.noTagPresent = false)
    (h : DeleteSince s time = some s1) :
    ∀ node ∈ s1.dynamic_entries_, node.2.noTagPresent = false := by
  unfold DeleteSince at h
  split at h
  · cases h
  · rename_i m dirtied hw
    simp only [Option.some.injEq] at h
    subst h
    have hm : ∀ node ∈ m, node.2.noTagPresent = false :=
      DeleteSinceWhile_present _ _ _ _ _ _ _ hw (fun _ hn => absurd hn (List.not_mem_nil _)) hinv
    split
    · rw [DirtyNotify_entries]
      exact hm
    · exact hm

/-- C13, evaluated on the code: the table holds four hosts, `a.example` with
an upgrade tag created at time 0 and `b.example`, `c.example`, `d.example` each
with an upgrade tag created at time 10. `DeleteSince(5)` leaves the table as it
is and fires no notification, while the prune that the claim describes removes
the three entries whose only tag was created after time 5. -/
theorem DeleteSince_differs_from_prune :
    DeleteSince { dynamic_entries_ := fourHosts, delegate_ := some 0 } 5 =
        some { dynamic_entries_ := fourHosts, delegate_ := some 0 } ∧
      DeleteSinceReference fourHosts 5 = [("a.example".toList, upgradeEntry)] := by
  decide

/-! ## No empty dynamic entries -/

/-- C14 as stated fails on the code: the dynamic table is the one that
`AddHSTSHeader` for `example.com` with a present policy leaves; it holds one
entry, under the key of size 0 where the header methods store every host, whose
upgrade tag is present, so no entry has all four tags absent. After `AddHSTSHeader` for
`example.com` with a header parsed as not present, the entry is still in the
table and all four of its tags are absent. The same is left behind for a host
not yet in the table: from the empty table the call leaves one entry, all four
tags absent. -/
theorem AddHSTSHeader_leaves_empty_entry :
    afterUpgradeHeader = { dynamic_entries_ := [([], upgradeEntry)], delegate_ := none } ∧
      (∀ node ∈ afterUpgradeHeader.dynamic_entries_, node.2.noTagPresent = false) ∧
      (∃ node ∈ (AddHSTSHeader CanonicalizeHostname afterUpgradeHeader 7 exampleCom
          (some (false, 5, false))).2.dynamic_entries_, node.2.noTagPresent = true) ∧
      (AddHSTSHeader CanonicalizeHostname afterUpgradeHeader 7 exampleCom
          (some (false, 5, false))).2.dynamic_entries_ =
        [([], { upgradeEntry with
                  tag_upgrade := { present_ := false, include_subdomains_ := false,
                                   created_ := 7, expiry_ := 5 } })] ∧
      (∃ node ∈ (AddHSTSHeader CanonicalizeHostname { dynamic_entries_ := [], delegate_ := none }
          7 exampleCom (some (false, 5, false))).2.dynamic_entries_,
        node.2.noTagPresent = true) := by
  decide

/-- C14 amended: when no entry of the dynamic table has all four tags absent,
the same holds after `Clear`, after every run of `DeleteSince` that is defined,
after `AddHSTSHeader` and `AddHPKPHeader` with a parsed policy whose `present`
is true (any host, time and other arguments), and after either of them with a
header that fails to parse, which leaves the state as it is. After
`AddHSTSHeader` (`AddHPKPHeader`) with a parsed policy whose `present` is false
the table holds an entry with all four tags absent exactly when the entry that
`dynamic_entries_[CanonicalizeHostname(host)]` refers to, the new entry of a
key not yet in the table included, has none of its other three tags present. -/
theorem no_empty_entry_persists (canon : Str → Str) (s : TransportSecurityState)
    (hinv : ∀ node ∈ s.dynamic_entries_, node.2.noTagPresent = false) :
    (∀ node ∈ (Clear s).dynamic_entries_, node.2.noTagPresent = false) ∧
    (∀ (time : Time) (s1 : TransportSecurityState), DeleteSince s time = some s1 →
      ∀ node ∈ s1.dynamic_entries_, node.2.noTagPresent = false) ∧
    (∀ (now : Time) (host : Str) (expiry : Time) (include_subdomains : Bool),
      ∀ node ∈ (AddHSTSHeader canon s now host
        (some (true, expiry, include_subdomains))).2.dynamic_entries_,
        node.2.noTagPresent = false) ∧
    (∀ (now : Time) (host : Str) (hashes : HashValueVector) (expiry : Time),
      ∀ node ∈ (AddHPKPHeader canon s now host (some (hashes, true, expiry))).2.dynamic_entries_,
        node.2.noTagPresent = false) ∧
    (∀ (now : Time) (host : Str),
      (AddHSTSHeader canon s now host none).2 = s ∧
        (AddHPKPHeader canon s now host none).2 = s) ∧
    (∀ (now : Time) (host : Str) (expiry : Time) (include_subdomains : Bool),
      (∃ node ∈ (AddHSTSHeader canon s now host
          (some (false, expiry, include_subdomains))).2.dynamic_entries_,
          node.2.noTagPresent = true) ↔
        ((s.dynamic_entries_.subscript (canon host)).tag_spki.present_ = false ∧
          (s.dynamic_entries_.subscript (canon host)).tag_tack_0.present_ = false ∧
          (s.dynamic_entries_.subscript (canon host)).tag_tack_1.present_ = false)) ∧
    (∀ (now : Time) (host : Str) (hashes : HashValueVector) (expiry : Time),
      (∃ node ∈ (AddHPKPHeader canon s now host
          (some (hashes, false, expiry))).2.dynamic_entries_,
          node.2.noTagPresent = true) ↔
        ((s.dynamic_entries_.subscript (canon host)).tag_upgrade.present_ = false ∧
          (s.dynamic_entries_.subscript (canon host)).tag_tack_0.present_ = false ∧
          (s.dynamic_entries_.subscript (canon host)).tag_tack_1.present_ = false)) := by
  refine ⟨?_, ?_, ?_, ?_, ?_, ?_, ?_⟩
  · intro node h
    simp [Clear] at h
  · intro time s1 h
    exact DeleteSince_present s s1 time hinv h
  · intro now host expiry include_subdomains node h
    rw [AddHSTSHeader_entries] at h
    rcases mem_put _ _ _ _ h with h | h
    · subst h
      simp [DynamicEntry.noTagPresent, DynamicEntry.setTag, Merge_eq]
    · exact hinv node h
  · intro now host hashes expiry node h
    obtain ⟨hashes1, he⟩ := AddHPKPHeader_entries canon s now host hashes true expiry
    rw [he] at h
    rcases mem_put _ _ _ _ h with h | h
    · subst h
      simp [DynamicEntry.noTagPresent, DynamicEntry.setTag, Merge_eq]
    · exact hinv node h
  · intro now host
    exact ⟨rfl, rfl⟩
  · intro now host expiry include_subdomains
    rw [AddHSTSHeader_entries]
    constructor
    · rintro ⟨node, hn, hp⟩
      rcases mem_put _ _ _ _ hn with h | h
      · subst h
        simp only [DynamicEntry.noTagPresent, DynamicEntry.setTag, Merge_eq, Bool.and_eq_true,
          Bool.not_eq_true'] at hp
        exact ⟨hp.1.1.2, hp.1.2, hp.2⟩
      · rw [hinv node h] at hp
        cases hp
    · rintro ⟨h1, h2, h3⟩
      exact ⟨_, mem_put_self _ _ _,
        by simp [DynamicEntry.noTagPresent, DynamicEntry.setTag, Merge_eq, h1, h2, h3]⟩
  · intro now host hashes expiry
    obtain ⟨hashes1, he⟩ := AddHPKPHeader_entries canon s now host hashes false expiry
    rw [he]
    constructor
    · rintro ⟨node, hn, hp⟩
      rcases mem_put _ _ _ _ hn with h | h
      · subst h
        simp only [DynamicEntry.noTagPresent, DynamicEntry.setTag, Merge_eq, Bool.and_eq_true,
          Bool.not_eq_true'] at hp
        exact ⟨hp.1.1.1, hp.1.2, hp.2⟩
      · rw [hinv node h] at hp
        cases hp
    · rintro ⟨h1, h2, h3⟩
      exact ⟨_, mem_put_self _ _ _,
        by simp [DynamicEntry.noTagPresent, DynamicEntry.setTag, Merge_eq, h1, h2, h3]⟩

/-- C14 amended, on the code with the table of four hosts, each with a present
upgrade tag: the run of `DeleteSince(5)` is defined; after it, after an upgrade
policy and after a pinning policy with `present` true no entry has all four
tags absent; an upgrade policy with `present` false, stored under the key of
size 0, which is not in the table, leaves such an entry. -/
theorem no_empty_entry_persists_witness :
    (∀ node ∈ fourHosts, node.2.noTagPresent = false) ∧
      DeleteSince { dynamic_entries_ := fourHosts, delegate_ := some 0 } 5 =
        some { dynamic_entries_ := fourHosts, delegate_ := some 0 } ∧
      (∀ node ∈ ({ dynamic_entries_ := fourHosts, delegate_ := some 0 } :
          TransportSecurityState).dynamic_entries_, node.2.noTagPresent = false) ∧
      (∀ node ∈ (AddHSTSHeader CanonicalizeHostname
          { dynamic_entries_ := fourHosts, delegate_ := some 0 } 7 exampleCom
          (some (true, 9, false))).2.dynamic_entries_, node.2.noTagPresent = false) ∧
      (∀ node ∈ (AddHPKPHeader CanonicalizeHostname
          { dynamic_entries_ := fourHosts, delegate_ := some 0 } 7 exampleCom
          (some ([sha1HashValue [3]], true, 9))).2.dynamic_entries_,
        node.2.noTagPresent = false) ∧
      ((∃ node ∈ (AddHSTSHeader CanonicalizeHostname
            { dynamic_entries_ := fourHosts, delegate_ := some 0 } 7 exampleCom
            (some (false, 9, false))).2.dynamic_entries_, node.2.noTagPresent = true) ↔
        ((fourHosts.subscript (CanonicalizeHostname exampleCom)).tag_spki.present_ = false ∧
          (fourHosts.subscript (CanonicalizeHostname exampleCom)).tag_tack_0.present_ = false ∧
          (fourHosts.subscript (CanonicalizeHostname exampleCom)).tag_tack_1.present_ = false)) ∧
      (∃ node ∈ (AddHSTSHeader CanonicalizeHostname
          { dynamic_entries_ := fourHosts, delegate_ := some 0 } 7 exampleCom
          (some (false, 9, false))).2.dynamic_entries_, node.2.noTagPresent = true) :=
  ⟨by decide, by decide,
    (no_empty_entry_persists CanonicalizeHostname
      { dynamic_entries_ := fourHosts, delegate_ := some 0 } (by decide)).2.1 5
      { dynamic_entries_ := fourHosts, delegate_ := some 0 } (by decide),
    (no_empty_entry_persists CanonicalizeHostname
      { dynamic_entries_ := fourHosts, delegate_ := some 0 } (by decide)).2.2.1 7 exampleCom 9
      false,
    (no_empty_entry_persists CanonicalizeHostname
      { dynamic_entries_ := fourHosts, delegate_ := some 0 } (by decide)).2.2.2.1 7 exampleCom
      [sha1HashValue [3]] 9,
    (no_empty_entry_persists CanonicalizeHostname
      { dynamic_entries_ := fourHosts, delegate_ := some 0 } (by decide)).2.2.2.2.2.1 7
      exampleCom 9 false,
    by decide⟩

/-! ## CheckTack -/

theorem firstSha256_none (hashes : HashValueVector)
    (h : ∀ x ∈ hashes, x.tag ≠ .HASH_VALUE_SHA256) : firstSha256 hashes = none := by
  induction hashes with
  | nil => rfl
  | cons x rest ih =>
    rw [firstSha256, if_neg (h x (List.mem_cons_self _ _))]
    exact ih (fun y hy => h y (List.mem_cons_of_mem _ hy))

theorem firstSha256_some (front back : HashValueVector) (x : HashValue)
    (hfront : ∀ y ∈ front, y.tag ≠ .HASH_VALUE_SHA256) (hx : x.tag = .HASH_VALUE_SHA256) :
    firstSha256 (front ++ x :: back) = some x.data := by
  induction front with
  | nil => simp [firstSha256, hx]
  | cons y rest ih =>
    rw [List.cons_append, firstSha256, if_neg (hfront y (List.mem_cons_self _ _))]
    exact ih (fun z hz => hfront z (List.mem_cons_of_mem _ hz))

/-! ## CanonicalizeHostname -/

/-- C19, evaluated on the code: for the host `Example.COM`, of length 11, the
string returned by `CanonicalizeHostname` is empty, where the claim has the
11 characters `example.com`. -/
theorem CanonicalizeHostname_returns_empty :
    CanonicalizeHostname "Example.COM".toList = [] ∧ "Example.COM".toList.length = 11 ∧
      lowercase "Example.COM".toList = "example.com".toList := by
  decide

/-- C20: an entry returned by `GetDynamicEntry` has its tag of the queried kind
present; it is the entry stored under the whole canonical host name, or else
the lookup is non-exact, the entry is stored under what follows a dot of that
name, and the tag has `include_subdomains_` set. -/
theorem GetDynamicEntry_needs_present_tag (canon : Str → Str)
    (dynamic_entries_ : DynamicEntryMap) (now : Time) (tag_index : TagIndex) (host : Str)
    (exact_match : Bool) (entry : DynamicEntry)
    (h : GetDynamicEntry canon dynamic_entries_ now tag_index host exact_match = some entry) :
    (entry.tags_ tag_index).present_ = true ∧
      (dynamic_entries_.find (canon host) = some entry ∨
        ((entry.tags_ tag_index).include_subdomains_ = true ∧ exact_match = false ∧
          ∃ p key : Str, canon host = p ++ '.' :: key ∧
            dynamic_entries_.find key = some entry)) := by
  obtain ⟨hp, _, hk⟩ := GetDynamicEntry_some _ _ _ _ _ _ _ h
  refine ⟨hp, ?_⟩
  rcases hk with hk | ⟨hex, hincl, hkey⟩
  · exact Or.inl hk
  · exact Or.inr ⟨hincl, hex, hkey⟩

/-- C20 on the code: the table as `AddHSTSHeader` for `example.com` left it, an
exact lookup for `example.com` at time 10; the entry returned has its upgrade
tag present and is the one stored under the name that the iterator holds. -/
theorem GetDynamicEntry_needs_present_tag_witness :
    GetDynamicEntry CanonicalizeHostname afterUpgradeHeader.dynamic_entries_ 10 .UPGRADE_TAG
        exampleCom true = some upgradeEntry ∧
      (upgradeEntry.tags_ .UPGRADE_TAG).present_ = true ∧
      (DynamicEntryMap.find afterUpgradeHeader.dynamic_entries_
          (CanonicalizeHostname exampleCom) = some upgradeEntry ∨
        ((upgradeEntry.tags_ .UPGRADE_TAG).include_subdomains_ = true ∧ true = false ∧
          ∃ p key : Str, CanonicalizeHostname exampleCom = p ++ '.' :: key ∧
            DynamicEntryMap.find afterUpgradeHeader.dynamic_entries_ key = some upgradeEntry)) :=
  ⟨by decide,
    GetDynamicEntry_needs_present_tag CanonicalizeHostname afterUpgradeHeader.dynamic_entries_ 10
      .UPGRADE_TAG exampleCom true upgradeEntry (by decide)⟩

/-! ## The sequence of candidates -/

namespace DomainNameIterator

/-- The loop returns what its body returns on the first yielded state on which
it returns. -/
theorem forLoop_eq_findSome {β : Type} (body : DomainNameIterator → Option β) (fuel : Nat)
    (it : DomainNameIterator) : forLoop body fuel it = (yielded fuel it).findSome? body := by
  induction fuel generalizing it with
  | zero => rfl
  | succ fuel ih =>
    rw [forLoop, yielded]
    split
    · rw [List.findSome?_cons]
      cases body it with
      | some r => rfl
      | none => exact ih it.Advance
    · rfl

/-- The bound `rounds` is never what ends the sequence: with more fuel no
further state is yielded. -/
theorem yielded_succ (fuel : Nat) (it : DomainNameIterator)
    (h : it.name_.length + 1 ≤ fuel + it.index_) : yielded (fuel + 1) it = yielded fuel it := by
  induction fuel generalizing it with
  | zero =>
    have hn : it.HasNext = false := by
      unfold HasNext
      split
      · simp; omega
      · simp [charAt_of_length_le it.name_ it.index_ (by omega)]
    simp [yielded, hn]
  | succ fuel ih =>
    rw [yielded]
    conv_rhs => rw [yielded]
    split
    · congr 1
      apply ih
      have := Advance_index_gt it
      simp only [Advance_name]
      omega
    · rfl

theorem yielded_fuel (k : Nat) (it : DomainNameIterator) :
    yielded (it.rounds + k) it = yielded it.rounds it := by
  induction k with
  | zero => rfl
  | succ k ih =>
    rw [← ih, ← Nat.add_assoc]
    exact yielded_succ _ it (by unfold rounds; omega)

/-- Consecutive yielded states are linked by `Advance`. -/
theorem yielded_chain (fuel : Nat) (it : DomainNameIterator) :
    List.Chain' (fun a b => b = a.Advance) (yielded fuel it) := by
  induction fuel generalizing it with
  | zero => simp [yielded]
  | succ fuel ih =>
    rw [yielded]
    split
    · cases fuel with
      | zero => simp [yielded]
      | succ fuel =>
        have := ih it.Advance
        rw [yielded] at this ⊢
        split
        · rename_i hn
          rw [if_pos hn] at this
          exact List.Chain'.cons rfl this
        · simp
    · simp

/-- Every yielded state passes `HasNext` and has the name and the flag of the
start, at the index of the start or beyond. -/
theorem yielded_mem (fuel : Nat) (it it1 : DomainNameIterator) (h : it1 ∈ yielded fuel it) :
    it1.HasNext = true ∧ it1.name_ = it.name_ ∧ it1.exact_match_ = it.exact_match_ ∧
      it.index_ ≤ it1.index_ := by
  induction fuel generalizing it with
  | zero => simp [yielded] at h
  | succ fuel ih =>
    rw [yielded] at h
    split at h
    · rename_i hn
      rcases List.mem_cons.mp h with h | h
      · subst h
        exact ⟨hn, rfl, rfl, Nat.le_refl _⟩
      · obtain ⟨h1, h2, h3, h4⟩ := ih it.Advance h
        have := Advance_index_gt it
        exact ⟨h1, h2, h3, by omega⟩
    · simp at h

end DomainNameIterator

/-! ## The walk is finite and in bounds -/

theorem charAt_drop (s : Str) (i k : Nat) : charAt (s.drop i) k = charAt s (i + k) := by
  simp [charAt, List.getElem?_drop]

/-- A dot at index `j` of `s`, at or behind `i`, is one of the dots of
`s.drop i` and does not belong to `s.drop (j + 1)`. -/
theorem count_dots_drop (s : Str) (i j : Nat) (hij : i ≤ j) (hj : charAt s j = '.') :
    (s.drop (j + 1)).count '.' + 1 ≤ (s.drop i).count '.' := by
  have h1 : charAt (s.drop i) (j - i) = '.' := by
    rw [charAt_drop, show i + (j - i) = j by omega, hj]
  have h2 := split_at_dot (s.drop i) (j - i) h1
  have h3 : (s.drop i).drop (j - i + 1) = s.drop (j + 1) := by
    rw [List.drop_drop]
    congr 1
    omega
  rw [h3] at h2
  rw [h2, List.count_append, List.count_cons_self]
  omega

namespace DomainNameIterator

theorem index_lt_of_HasNext (it : DomainNameIterator) (hex : it.exact_match_ = false)
    (hn : it.HasNext = true) : it.index_ < it.name_.length := by
  by_contra hge
  have := charAt_of_length_le it.name_ it.index_ (by omega)
  simp [HasNext, hex, this] at hn

theorem skipLabel_le (name : Str) (fuel i : Nat) (h : i ≤ name.length) :
    skipLabel name fuel i ≤ name.length := by
  induction fuel generalizing i with
  | zero => simpa [skipLabel] using h
  | succ fuel ih =>
    rw [skipLabel]
    split
    · rename_i hc
      apply ih
      by_contra hge
      have := charAt_of_length_le name i (by omega)
      simp [this] at hc
    · exact h

/-- From a state that passes `HasNext` in a non-exact walk, `Advance` stays
within the name. -/
theorem Advance_index_le (it : DomainNameIterator) (hex : it.exact_match_ = false)
    (hn : it.HasNext = true) : it.Advance.index_ ≤ it.name_.length := by
  have hlt := index_lt_of_HasNext it hex hn
  have hle := skipLabel_le it.name_ it.name_.length (it.index_ + 1) (by omega)
  simp only [Advance]
  split
  · rename_i hc
    simp only [beq_iff_eq] at hc
    by_contra hge
    have := charAt_of_length_le it.name_ (skipLabel it.name_ it.name_.length (it.index_ + 1))
      (by omega)
    rw [this] at hc
    exact dot_ne_NUL hc.symm
  · exact hle

/-- The states yielded from `it` in a non-exact walk are at most one more than
the dots of the name from the index of `it` on. -/
theorem yielded_length_le (fuel : Nat) (it : DomainNameIterator)
    (hex : it.exact_match_ = false) :
    (yielded fuel it).length ≤ (it.name_.drop it.index_).count '.' + 1 := by
  induction fuel generalizing it with
  | zero => simp [yielded]
  | succ fuel ih =>
    rw [yielded]
    split
    · rw [List.length_cons]
      have hgt := Advance_index_gt it
      rcases Advance_index_cases it with ⟨hpos, hdot⟩ | hnul
      · have h1 := ih it.Advance (by simpa using hex)
        have h2 := count_dots_drop it.name_ it.index_ (it.Advance.index_ - 1) (by omega) hdot
        rw [show it.Advance.index_ - 1 + 1 = it.Advance.index_ by omega] at h2
        simp only [Advance_name] at h1
        omega
      · have : yielded fuel it.Advance = [] := by
          cases fuel with
          | zero => rfl
          | succ fuel =>
            rw [yielded]
            have hn : it.Advance.HasNext = false := by
              simp [HasNext, hex, hnul]
            simp [hn]
        rw [this]
        simp
    · simp

/-- The walk ends: after as many `Advance` steps as there are yielded states,
`HasNext` fails. -/
theorem yielded_ends (fuel : Nat) (it : DomainNameIterator)
    (h : it.name_.length + 1 ≤ fuel + it.index_) :
    (Advance^[(yielded fuel it).length] it).HasNext = false := by
  induction fuel generalizing it with
  | zero =>
    simp only [yielded, List.length_nil, Function.iterate_zero, id_eq]
    unfold HasNext
    split
    · simp; omega
    · simp [charAt_of_length_le it.name_ it.index_ (by omega)]
  | succ fuel ih =>
    rw [yielded]
    split
    · rw [List.length_cons, Function.iterate_succ_apply]
      apply ih
      have := Advance_index_gt it
      simp only [Advance_name]
      omega
    · rename_i hn
      simpa using hn

end DomainNameIterator

/-- C24: for every string `name` the non-exact walk from index 0 ends within
`name.length + 1` rounds (more fuel yields no further state, and `HasNext`
fails after the last yielded state) and its states are linked by `Advance`. On every yielded state `Advance` moves `index_` strictly
forward and not beyond the length of `name`; the name it yields is not empty
and is a suffix of `name`; and there are at most one more states than there are
dots in `name`. -/
theorem walk_finite_and_in_bounds (name : Str) :
    (∀ k : Nat,
      DomainNameIterator.yielded (name.length + 1 + k)
          { name_ := name, index_ := 0, exact_match_ := false } =
        DomainNameIterator.yielded (name.length + 1)
          { name_ := name, index_ := 0, exact_match_ := false }) ∧
    (DomainNameIterator.Advance^[(DomainNameIterator.yielded (name.length + 1)
        { name_ := name, index_ := 0, exact_match_ := false }).length]
      { name_ := name, index_ := 0, exact_match_ := false }).HasNext = false ∧
    List.Chain' (fun a b => b = a.Advance)
      (DomainNameIterator.yielded (name.length + 1)
        { name_ := name, index_ := 0, exact_match_ := false }) ∧
    (∀ it ∈ DomainNameIterator.yielded (name.length + 1)
        { name_ := name, index_ := 0, exact_match_ := false },
      it.index_ < it.Advance.index_ ∧ it.Advance.index_ ≤ name.length ∧
        it.GetName ≠ [] ∧ it.GetName <:+ name) ∧
    (DomainNameIterator.yielded (name.length + 1)
        { name_ := name, index_ := 0, exact_match_ := false }).length ≤ name.count '.' + 1 := by
  refine ⟨?_, ?_, ?_, ?_, ?_⟩
  · intro k
    exact DomainNameIterator.yielded_fuel k { name_ := name, index_ := 0, exact_match_ := false }
  · exact DomainNameIterator.yielded_ends _ _ (by simp)
  · exact DomainNameIterator.yielded_chain _ _
  · intro it hit
    obtain ⟨hn, hname, hex, _⟩ := DomainNameIterator.yielded_mem _ _ _ hit
    simp only at hname hex
    have hlt := DomainNameIterator.index_lt_of_HasNext it hex hn
    have hle := DomainNameIterator.Advance_index_le it hex hn
    rw [hname] at hlt hle
    refine ⟨DomainNameIterator.Advance_index_gt it, hle, ?_, ?_⟩
    · intro h0
      have := congrArg List.length h0
      simp [DomainNameIterator.GetName, hname] at this
      omega
    · rw [DomainNameIterator.GetName, hname]
      exact List.drop_suffix _ _
  · have := DomainNameIterator.yielded_length_le (name.length + 1)
      { name_ := name, index_ := 0, exact_match_ := false } rfl
    simpa using this

/-! ## The suffix sequence of a well-formed name -/

theorem suffixesOf_length (labels : List Str) (last : Str) :
    (suffixesOf labels last).length = labels.length + 1 := by
  induction labels with
  | nil => rfl
  | cons l ls ih => simp [suffixesOf, ih]

/-- The `i`-th suffix is the name with its leftmost `i` labels, and the dots
behind them, removed. -/
theorem suffixesOf_getElem (labels : List Str) (last : Str) (i : Nat)
    (hi : i ≤ labels.length) :
    (suffixesOf labels last)[i]? = some (subdomainOf (labels.drop i) last) := by
  induction labels generalizing i with
  | nil =>
    have : i = 0 := by simpa using hi
    subst this
    rfl
  | cons l ls ih =>
    cases i with
    | zero => simp [suffixesOf]
    | succ i =>
      rw [suffixesOf, List.getElem?_cons_succ, List.drop_succ_cons]
      exact ih i (by simpa using hi)

namespace DomainNameIterator

/-- From the start of the last label, `Advance` moves to the end of the name,
where `HasNext` fails. -/
theorem Advance_last_label (pre l : Str) (hl : isLabel l) :
    Advance { name_ := pre ++ l, index_ := pre.length, exact_match_ := false } =
      { name_ := pre ++ l, index_ := (pre ++ l).length, exact_match_ := false } := by
  have hlen : 0 < l.length := List.length_pos.mpr hl.1
  have hend : charAt (pre ++ l) (pre.length + 1 + (l.length - 1)) = NUL :=
    charAt_of_length_le _ _ (by simp; omega)
  have hskip : skipLabel (pre ++ l) (pre ++ l).length (pre.length + 1) =
      pre.length + 1 + (l.length - 1) := by
    apply skipLabel_eq
    · simp; omega
    · intro k hk
      rw [show pre.length + 1 + k = pre.length + (k + 1) by omega, charAt_append_right]
      exact hl.2 _ (charAt_mem l (k + 1) (by omega))
    · exact Or.inr hend
  have hne : (charAt (pre ++ l) (pre.length + 1 + (l.length - 1)) == '.') = false := by
    rw [hend]
    decide
  simp only [Advance, hskip, hne]
  congr 1
  simp
  omega

/-- The names yielded on `labels.….last` from the start of the first label on
are the suffixes of the spec. -/
theorem yielded_names (labels : List Str) (last : Str) (hlabels : ∀ l, l ∈ labels → isLabel l)
    (hlast : isLabel last) (pre : Str) (fuel : Nat)
    (hfuel : (pre ++ subdomainOf labels last).length + 1 ≤ fuel + pre.length) :
    (yielded fuel { name_ := pre ++ subdomainOf labels last, index_ := pre.length,
                    exact_match_ := false }).map GetName = suffixesOf labels last := by
  induction labels generalizing pre fuel with
  | nil =>
    cases fuel with
    | zero => simp at hfuel; omega
    | succ fuel =>
      simp only [subdomainOf, List.foldr_nil] at hfuel ⊢
      have hn := HasNext_at pre last (by
        have := charAt_zero_of_isLabel last [] hlast
        simpa using this)
      rw [yielded, if_pos hn, Advance_last_label pre last hlast]
      have hno : ∀ n : Nat, n = (pre ++ last).length →
          yielded fuel { name_ := pre ++ last, index_ := n, exact_match_ := false } = [] := by
        intro n hn1
        cases fuel with
        | zero => rfl
        | succ fuel =>
          rw [yielded]
          have : HasNext { name_ := pre ++ last, index_ := n, exact_match_ := false } = false := by
            simp [HasNext, charAt_of_length_le (pre ++ last) n (by omega)]
          simp [this]
      rw [hno _ rfl]
      simp [GetName, suffixesOf]
  | cons l ls ih =>
    cases fuel with
    | zero => simp at hfuel; omega
    | succ fuel =>
      have hl : isLabel l := hlabels l (List.mem_cons_self _ _)
      have hname : subdomainOf (l :: ls) last = l ++ '.' :: subdomainOf ls last := rfl
      rw [suffixesOf, hname, yielded,
        if_pos (HasNext_at pre _ (charAt_zero_of_isLabel l _ hl)), Advance_label pre l _ false hl]
      have hpre : pre ++ (l ++ '.' :: subdomainOf ls last) =
          (pre ++ l ++ ['.']) ++ subdomainOf ls last := by simp
      have hlen : pre.length + l.length + 1 = (pre ++ l ++ ['.']).length := by
        simp only [List.length_append, List.length_singleton]
      rw [List.map_cons]
      congr 1
      · simp [GetName]
      · rw [hpre, hlen]
        apply ih (fun l1 h1 => hlabels l1 (List.mem_cons_of_mem _ h1))
        rw [hname, hpre] at hfuel
        simp at hfuel ⊢
        omega

/-- In a walk from index 0 the first yielded state is the only one on which
`IsFullHostname` holds. -/
theorem yielded_isFull (fuel : Nat) (it : DomainNameIterator) (h0 : it.index_ = 0) :
    (yielded fuel it).map IsFullHostname =
      (List.replicate (yielded fuel it).length false).set 0 true := by
  cases fuel with
  | zero => simp [yielded]
  | succ fuel =>
    rw [yielded]
    split
    · have htail : (yielded fuel it.Advance).map IsFullHostname =
          List.replicate (yielded fuel it.Advance).length false := by
        rw [List.eq_replicate_iff]
        refine ⟨by simp, ?_⟩
        intro b hb
        obtain ⟨it1, h1, rfl⟩ := List.mem_map.mp hb
        obtain ⟨_, _, _, hle⟩ := yielded_mem _ _ _ h1
        have := Advance_index_gt it
        simp [IsFullHostname]
        omega
      simp [htail, IsFullHostname, h0, List.replicate_succ]
    · simp

end DomainNameIterator

/-- C23: for a name made of the non-empty labels `labels` and `last` joined by
single dots, the non-exact walk yields exactly as many names as there are
labels; the `i`-th is the name with its leftmost `i` labels and their dots
removed, the last one being the bare last label; and `IsFullHostname` is true
on the first and false on every later one. -/
theorem suffix_sequence_of_labels (labels : List Str) (last : Str)
    (hlabels : ∀ l, l ∈ labels → isLabel l) (hlast : isLabel last) :
    (DomainNameIterator.yielded ((subdomainOf labels last).length + 1)
        { name_ := subdomainOf labels last, index_ := 0, exact_match_ := false }).length =
      labels.length + 1 ∧
    (∀ i, i ≤ labels.length →
      ((DomainNameIterator.yielded ((subdomainOf labels last).length + 1)
          { name_ := subdomainOf labels last, index_ := 0, exact_match_ := false }).map
        DomainNameIterator.GetName)[i]? = some (subdomainOf (labels.drop i) last)) ∧
    (DomainNameIterator.yielded ((subdomainOf labels last).length + 1)
        { name_ := subdomainOf labels last, index_ := 0, exact_match_ := false }).map
      DomainNameIterator.GetName = suffixesOf labels last ∧
    (DomainNameIterator.yielded ((subdomainOf labels last).length + 1)
        { name_ := subdomainOf labels last, index_ := 0, exact_match_ := false }).map
      DomainNameIterator.IsFullHostname = true :: List.replicate labels.length false := by
  have hnames := DomainNameIterator.yielded_names labels last hlabels hlast []
    ((subdomainOf labels last).length + 1) (by simp)
  simp only [List.nil_append, List.length_nil] at hnames
  have hlen : (DomainNameIterator.yielded ((subdomainOf labels last).length + 1)
      { name_ := subdomainOf labels last, index_ := 0, exact_match_ := false }).length =
      labels.length + 1 := by
    have := congrArg List.length hnames
    rwa [List.length_map, suffixesOf_length] at this
  refine ⟨hlen, ?_, hnames, ?_⟩
  · intro i hi
    rw [hnames]
    exact suffixesOf_getElem labels last i hi
  · rw [DomainNameIterator.yielded_isFull _ _ rfl, hlen, List.replicate_succ]
    rfl

/-- C23 at `www.example.com`: the names `www.example.com`, `example.com`,
`com`, the first with `IsFullHostname`. -/
theorem suffix_sequence_of_labels_witness :
    (∀ l, l ∈ ["www".toList, "example".toList] → isLabel l) ∧ isLabel "com".toList ∧
      (DomainNameIterator.yielded ("www.example.com".toList.length + 1)
          { name_ := "www.example.com".toList, index_ := 0, exact_match_ := false }).map
        DomainNameIterator.GetName =
        ["www.example.com".toList, "example.com".toList, "com".toList] ∧
      (DomainNameIterator.yielded ("www.example.com".toList.length + 1)
          { name_ := "www.example.com".toList, index_ := 0, exact_match_ := false }).map
        DomainNameIterator.IsFullHostname = [true, false, false] :=
  ⟨by unfold isLabel; decide, by unfold isLabel; decide,
    (suffix_sequence_of_labels ["www".toList, "example".toList] "com".toList
      (by unfold isLabel; decide) (by unfold isLabel; decide)).2.2.1,
    (suffix_sequence_of_labels ["www".toList, "example".toList] "com".toList
      (by unfold isLabel; decide) (by unfold isLabel; decide)).2.2.2⟩

/-! ## The lookups as a search over the candidates -/

theorem findSome_map_some_join {α β : Type} (f : α → Option β) (l : List α) :
    (l.findSome? (fun x => (f x).map some)).join = l.findSome? f := by
  induction l with
  | nil => rfl
  | cons x rest ih =>
    rw [List.findSome?_cons, List.findSome?_cons]
    cases f x with
    | some r => rfl
    | none => exact ih

/-- For the three tag kinds with data in a preload record, the switch returns
the record exactly when it carries data relevant to the kind. -/
theorem preloadSwitch_eq (tag_index : TagIndex) (htag : tag_index ≠ .TACK_1_TAG)
    (entry : PreloadEntry) :
    preloadSwitch tag_index entry =
      if relevantData tag_index entry then some (some entry) else none := by
  cases tag_index <;> first
    | exact absurd rfl htag
    | rfl

/-- For those tag kinds the scan of the table for one candidate is the search
for the first record that matches the candidate, is in scope and carries
relevant data. -/
theorem preloadScan_eq_find (tag_index : TagIndex) (htag : tag_index ≠ .TACK_1_TAG)
    (name : Str) (isFull : Bool) (table : List PreloadEntry) :
    preloadScan tag_index name isFull table =
      (table.find? (fun entry =>
        decide (entry.name = name) && (isFull || entry.include_subdomains) &&
          relevantData tag_index entry)).map some := by
  induction table with
  | nil => rfl
  | cons e rest ih =>
    rw [preloadScan, List.find?_cons, preloadSwitch_eq tag_index htag, ih]
    by_cases hn : e.name = name <;> cases isFull <;> cases hi : e.include_subdomains <;>
      cases hr : relevantData tag_index e <;> simp [hn, hi, hr]

/-- For slot 1 the scan of the table never returns a record. -/
theorem preloadScan_TACK_1 (name : Str) (isFull : Bool) (table : List PreloadEntry)
    (x : Option PreloadEntry) (h : preloadScan .TACK_1_TAG name isFull table = some x) :
    x = none := by
  induction table with
  | nil => simp [preloadScan] at h
  | cons e rest ih =>
    rw [preloadScan] at h
    split at h
    · simp only [preloadSwitch] at h
      cases h
      rfl
    · exact ih h

/-- Over the states of its own walk `GetPreloadEntry` is a first-match search,
for every canonicalisation: it returns the first record, over the states in
order and then in table order, whose name is the name of the state, that is in
scope and that carries data relevant to the tag kind. A record that matches a
state without such data is passed over. -/
theorem GetPreloadEntry_eq_search_over_walk (canon : Str → Str)
    (kPreloadedSTS : List PreloadEntry) (tag_index : TagIndex) (host : Str)
    (exact_match : Bool) :
    GetPreloadEntry canon kPreloadedSTS tag_index host exact_match =
      GetPreloadEntryOverWalk canon kPreloadedSTS tag_index host exact_match := by
  unfold GetPreloadEntry GetPreloadEntryOverWalk
  simp only
  by_cases htag : tag_index = .TACK_1_TAG
  · subst htag
    have href : ∀ l : List DomainNameIterator,
        l.findSome? (fun candidate =>
          kPreloadedSTS.find? (fun entry =>
            decide (entry.name = candidate.GetName) &&
              (candidate.IsFullHostname || entry.include_subdomains) &&
              relevantData .TACK_1_TAG entry)) = none := by
      intro l
      simp [relevantData]
    rw [href]
    cases hl : DomainNameIterator.forLoop
        (fun it => preloadScan .TACK_1_TAG it.GetName it.IsFullHostname kPreloadedSTS)
        (DomainNameIterator.init canon host exact_match).rounds
        (DomainNameIterator.init canon host exact_match) with
    | none => rfl
    | some x =>
      obtain ⟨it1, _, _, _, h4, _⟩ := DomainNameIterator.forLoop_some _ _ _ _ hl
      rw [preloadScan_TACK_1 _ _ _ _ h4]
      rfl
  · rw [DomainNameIterator.forLoop_eq_findSome]
    have hbody : (fun it : DomainNameIterator =>
        preloadScan tag_index it.GetName it.IsFullHostname kPreloadedSTS) =
        (fun it => (kPreloadedSTS.find? (fun entry =>
          decide (entry.name = it.GetName) && (it.IsFullHostname || entry.include_subdomains) &&
            relevantData tag_index entry)).map some) := by
      funext it
      exact preloadScan_eq_find tag_index htag _ _ _
    rw [hbody, findSome_map_some_join]

/-! ## The dynamic lookup over the states of the walk -/

/-- Over the states of its own walk `GetDynamicEntry` is a first-match search,
for every canonicalisation: it returns the entry of the first state whose name
is a key of the table and whose entry has the tag of the queried kind present,
passing the time test of the code and in scope (the state is at the full
hostname or the tag has `include_subdomains_`). -/
theorem GetDynamicEntry_eq_first_satisfying (canon : Str → Str)
    (dynamic_entries_ : DynamicEntryMap) (now : Time) (tag_index : TagIndex) (host : Str)
    (exact_match : Bool) :
    GetDynamicEntry canon dynamic_entries_ now tag_index host exact_match =
      ((DomainNameIterator.init canon host exact_match).yielded
        (DomainNameIterator.init canon host exact_match).rounds).findSome? (fun candidate =>
          (dynamic_entries_.find candidate.GetName).bind (fun entry =>
            if (entry.tags_ tag_index).present_ = true ∧ now > (entry.tags_ tag_index).expiry_ ∧
                (candidate.IsFullHostname = true ∨
                  (entry.tags_ tag_index).include_subdomains_ = true) then
              some entry
            else none)) := by
  unfold GetDynamicEntry
  simp only
  rw [DomainNameIterator.forLoop_eq_findSome]
  congr 1
  funext it
  unfold dynamicBody
  cases dynamic_entries_.find it.GetName with
  | none => rfl
  | some e =>
    simp only [Option.some_bind]
    by_cases h1 : (e.tags_ tag_index).present_ = true <;>
      by_cases h2 : now > (e.tags_ tag_index).expiry_ <;>
      by_cases h3 : it.IsFullHostname = true <;>
      by_cases h4 : (e.tags_ tag_index).include_subdomains_ = true <;>
      simp [h1, h2, h3, h4]

/-! ## The methods of the code, with `CanonicalizeHostname` as it is

The name that `DomainNameIterator` stores is `CanonicalizeHostname(host)`, of
size 0. A non-exact walk runs no round (`HasNext` reads the terminator at index
0); an exact walk runs one round, on the name of size 0. -/

/-- On the code `CheckSpki` returns true for every host, chain, table and time:
both lookups are non-exact and find nothing. -/
theorem CheckSpki_CanonicalizeHostname (kPreloadedSTS : List PreloadEntry)
    (dynamic_entries_ : DynamicEntryMap) (now : Time) (host : Str) (hashes : HashValueVector) :
    CheckSpki CanonicalizeHostname kPreloadedSTS dynamic_entries_ now host hashes = true := rfl

/-- On the code `CheckTack` returns true for every host, chain, extension,
verifier, table and time. -/
theorem CheckTack_CanonicalizeHostname (kPreloadedSTS : List PreloadEntry)
    (dynamic_entries_ : DynamicEntryMap) (now : Time)
    (wellFormed : List Nat → List Nat → Time → Bool) (host : Str) (hashes : HashValueVector)
    (tackExt : List Nat) :
    CheckTack CanonicalizeHostname kPreloadedSTS dynamic_entries_ now wellFormed host hashes
      tackExt = true := rfl

/-- On the code `ShouldUpgrade` and `IsStrictOnErrors` return false for every
host, table and time. -/
theorem queries_CanonicalizeHostname (kPreloadedSTS : List PreloadEntry)
    (dynamic_entries_ : DynamicEntryMap) (now : Time) (host : Str) :
    ShouldUpgrade CanonicalizeHostname kPreloadedSTS dynamic_entries_ now host = false ∧
      IsStrictOnErrors CanonicalizeHostname kPreloadedSTS dynamic_entries_ now host = false :=
  ⟨rfl, rfl⟩

/-- What `GetPreloadSpki` hands back when its lookup does find a record (here an
exact lookup, on a record whose name has size 0): values that hold the bytes of
the slots, `[201]` and `[209]`, not the digests `[1]` and `[9]` of the record. -/
theorem GetPreloadSpki_copies_slot_bytes :
    GetPreloadSpki CanonicalizeHostname [{ blockingRecord with name := [] }] exampleCom [] []
        true = (true, [sha1HashValue [201]], [sha1HashValue [209]]) := by
  decide

/-! ### CheckSpki on the code -/

/-- C1, evaluated on the code: `example.com` has SPKI data on the preload
source, a record that allows the digest `[1]`, which the lookup of the
specification finds; the chain holds the digest `[3]` alone, which is not
blocked and is not allowed by either source. The claim has `CheckSpki` return
false; it returns true. The same on the dynamic source: the code's own
`AddHPKPHeader` for `example.com` with the pin `[2]`, expiring at time 5, has
left its entry in the table; at time 3 the chain `[3]` passes. -/
theorem CheckSpki_accepts_unmatched_chain :
    GetPreloadEntryReference [pinnedRecord] .SPKI_TAG exampleCom false = some pinnedRecord ∧
      HashesIntersect [sha1HashValue [1]] [sha1HashValue [3]] = false ∧
      CheckSpki CanonicalizeHostname [pinnedRecord] [] 10 exampleCom [sha1HashValue [3]] = true ∧
      afterPinningHeader.dynamic_entries_ = [([], spkiEntry)] ∧
      spkiEntry.tags_ .SPKI_TAG =
        { present_ := true, include_subdomains_ := false, created_ := 0, expiry_ := 5 } ∧
      HashesIntersect spkiEntry.hashes_ [sha1HashValue [3]] = false ∧
      CheckSpki CanonicalizeHostname [] afterPinningHeader.dynamic_entries_ 3 exampleCom
        [sha1HashValue [3]] = true := by
  decide

/-- C2, evaluated on the code: `example.com` has a preload record that blocks
the digest `[9]`, which the lookup of the specification finds. The claim has
`CheckSpki` return false for a chain that holds `[9]`; it returns true, for the
chain `[9]` and for the chain `[9], [1]`. -/
theorem CheckSpki_accepts_blocked_digest :
    GetPreloadEntryReference [blockingRecord] .SPKI_TAG exampleCom false = some blockingRecord ∧
      blockingRecord.bad_hashes = some [{ digest := [9], slot_bytes := [209] }] ∧
      CheckSpki CanonicalizeHostname [blockingRecord] [] 10 exampleCom [sha1HashValue [9]] =
        true ∧
      CheckSpki CanonicalizeHostname [blockingRecord] [] 10 exampleCom
        [sha1HashValue [9], sha1HashValue [1]] = true := by
  decide

/-- C3, evaluated on the code: `example.com` has pins, on the preload source (a
record that the lookup of the specification finds) or on the dynamic source
(stored by the code's own `AddHPKPHeader`, present, expiring at time 5). The
claim has `CheckSpki` return false for the empty chain; it returns true, for
the preload pin and, at time 3, for the dynamic pin. -/
theorem CheckSpki_accepts_empty_chain :
    GetPreloadEntryReference [pinnedRecord] .SPKI_TAG exampleCom false = some pinnedRecord ∧
      CheckSpki CanonicalizeHostname [pinnedRecord] [] 10 exampleCom [] = true ∧
      afterPinningHeader.dynamic_entries_ = [([], spkiEntry)] ∧
      spkiEntry.tags_ .SPKI_TAG =
        { present_ := true, include_subdomains_ := false, created_ := 0, expiry_ := 5 } ∧
      CheckSpki CanonicalizeHostname [] afterPinningHeader.dynamic_entries_ 3 exampleCom [] =
        true := by
  decide

/-- C5, evaluated on the code: the preload table holds the one record
`pinned.example`, with `include_subdomains`, allowing the digest `[1]`, and the
dynamic table is empty; the lookup of the specification finds the record for
`sub.pinned.example`. The claim has `check_spki("sub.pinned.example", [D2])`
false for the digest `[2]`; `CheckSpki` returns true, as it does for `[1]`
and for `other.example`. -/
theorem CheckSpki_accepts_other_digest_for_subdomain :
    GetPreloadEntryReference [pinnedExample] .SPKI_TAG "sub.pinned.example".toList false =
        some pinnedExample ∧
      CheckSpki CanonicalizeHostname [pinnedExample] [] 0 "sub.pinned.example".toList
        [sha1HashValue [2]] = true ∧
      CheckSpki CanonicalizeHostname [pinnedExample] [] 0 "sub.pinned.example".toList
        [sha1HashValue [1]] = true ∧
      CheckSpki CanonicalizeHostname [pinnedExample] [] 0 "other.example".toList
        [sha1HashValue [2]] = true := by
  decide

/-! ### CheckTack on the code -/

/-- C18, evaluated on the code: `example.com` has a preload record with a
trust-agility key, which the lookup of the specification finds. The claim has
`CheckTack` return false for a chain without a SHA-256 digest, and for a chain
whose first SHA-256 digest the verifier rejects; it returns true for both. -/
theorem CheckTack_accepts_unverified_chain :
    GetPreloadEntryReference [tackRecord] .TACK_0_TAG exampleCom false = some tackRecord ∧
      firstSha256 [sha1HashValue [3]] = none ∧
      CheckTack CanonicalizeHostname [tackRecord] [] 10 rejectingVerifier exampleCom
        [sha1HashValue [3]] [1] = true ∧
      firstSha256 [sha1HashValue [3], { tag := .HASH_VALUE_SHA256, data := [7] }] = some [7] ∧
      rejectingVerifier [1] [7] 10 = false ∧
      CheckTack CanonicalizeHostname [tackRecord] [] 10 rejectingVerifier exampleCom
        [sha1HashValue [3], { tag := .HASH_VALUE_SHA256, data := [7] }] [1] = true := by
  decide

/-! ### The dynamic lookup on the code -/

/-- C8, evaluated on the code: after `AddHSTSHeader` for `example.com` with
expiry 5 the table holds the entry under the key of size 0, where an exact
lookup for `example.com` looks. At time 10, when the tag has expired,
`GetDynamicEntry` returns the entry and `GetDynamicUpgrade` is true; at times 3
and 5 they return nothing. The claim has an entry returned only while
`now < expiry`. -/
theorem GetDynamicEntry_returns_expired :
    afterUpgradeHeader.dynamic_entries_ = [([], upgradeEntry)] ∧
      (upgradeEntry.tags_ .UPGRADE_TAG).expiry_ = 5 ∧
      GetDynamicEntry CanonicalizeHostname afterUpgradeHeader.dynamic_entries_ 10 .UPGRADE_TAG
        exampleCom true = some upgradeEntry ∧
      GetDynamicUpgrade CanonicalizeHostname afterUpgradeHeader.dynamic_entries_ 10 exampleCom
        true = true ∧
      GetDynamicEntry CanonicalizeHostname afterUpgradeHeader.dynamic_entries_ 3 .UPGRADE_TAG
        exampleCom true = none ∧
      GetDynamicEntry CanonicalizeHostname afterUpgradeHeader.dynamic_entries_ 5 .UPGRADE_TAG
        exampleCom true = none ∧
      GetDynamicUpgrade CanonicalizeHostname afterUpgradeHeader.dynamic_entries_ 3 exampleCom
        true = false := by
  decide

/-- The walk of the iterator over a stored name with two dots in a row:
`Advance` starts its scan one character behind the index, so from the state
`.example.com` it goes on to `com`, and `example.com`, a member of the suffix
sequence of the specification, is not among the states. -/
theorem walk_skips_suffix_behind_two_dots :
    (DomainNameIterator.yielded ("www..example.com".toList.length + 1)
        { name_ := "www..example.com".toList, index_ := 0, exact_match_ := false }).map
      DomainNameIterator.GetName =
        ["www..example.com".toList, ".example.com".toList, "com".toList] ∧
      suffixesReference "www..example.com".toList false =
        ["www..example.com".toList, ".example.com".toList, "example.com".toList,
          "com".toList] := by
  decide

/-- C21, evaluated on the code: the table holds the record `example.com` with
`include_subdomains` and the upgrade flag. For `www.example.com` the candidates
of the suffix sequence are `www.example.com`, `example.com`, `com`, and the
first record of the claim is that record; `GetPreloadEntry` returns nothing. It
returns nothing for `example.com` itself too, exact or not, where the claim has
the record. -/
theorem GetPreloadEntry_misses_first_record :
    suffixesReference "www.example.com".toList false =
        ["www.example.com".toList, "example.com".toList, "com".toList] ∧
      GetPreloadEntryReference [inheritRecord] .UPGRADE_TAG "www.example.com".toList false =
        some inheritRecord ∧
      GetPreloadEntry CanonicalizeHostname [inheritRecord] .UPGRADE_TAG "www.example.com".toList
        false = none ∧
      GetPreloadEntryReference [inheritRecord] .UPGRADE_TAG exampleCom false =
        some inheritRecord ∧
      GetPreloadEntry CanonicalizeHostname [inheritRecord] .UPGRADE_TAG exampleCom false = none ∧
      GetPreloadEntryReference [inheritRecord] .UPGRADE_TAG exampleCom true =
        some inheritRecord ∧
      GetPreloadEntry CanonicalizeHostname [inheritRecord] .UPGRADE_TAG exampleCom true = none := by
  decide

/-! ### IsStrictOnErrors on the code -/

end net
